import Mathlib

/-!
Verification of the relationship-based clustering and spatial-layout engine
(`src/unnamed/part_003`, the current revision of `App.tsx`).

The TypeScript source is shallowly embedded: JavaScript `Map`s become
insertion-ordered association lists (`Map.set` replaces in place or appends a
new key at the end, matching JS iteration order), JS `Set`s become
duplicate-free lists in insertion order, numbers used by the engine become
`Int`/`Nat` (only comparisons and sums of prices and offsets are relevant),
exceptions (e.g. `products.get(id)!.price` on a missing id) become `Option`,
and the unbounded recursion/`while` loops of the source become fuel-indexed
structural recursion where the fuel is provably sufficient.
-/

set_option maxHeartbeats 1000000

/-- The item record (`type TGrocery` in the source). The engine reads only
`id` and `price`; the remaining fields are opaque display payload. -/
structure TGrocery where
  id : String
  product : String
  price : Int
  packSize : String
  brand : String
deriving DecidableEq, Repr, Inhabited

/-- `type TProductPair = [string, string]`. -/
abbrev TProductPair := String × String

/-! ### Association-list model of JS `Map` (insertion ordered) -/

/-- `Map.get`: first binding of the key, if any. -/
def getKV {κ ν : Type} [DecidableEq κ] : List (κ × ν) → κ → Option ν
  | [], _ => none
  | (k', v') :: t, k => if k = k' then some v' else getKV t k

/-- `Map.set`: replace the binding in place if the key is present, otherwise
append the new binding at the end (JS `Map` keeps first-insertion order). -/
def setKV {κ ν : Type} [DecidableEq κ] : List (κ × ν) → κ → ν → List (κ × ν)
  | [], k, v => [(k, v)]
  | (k', v') :: t, k, v => if k = k' then (k, v) :: t else (k', v') :: setKV t k v

/-- The `if (!m.has(k)) m.set(k, []); m.get(k)!.push(x)` idiom: append `x` to
the list bound to `k`, creating the binding at the end if absent. -/
def pushEntry {κ : Type} [DecidableEq κ] : List (κ × List String) → κ → String → List (κ × List String)
  | [], k, x => [(k, [x])]
  | (k', v) :: t, k, x => if k = k' then (k, v ++ [x]) :: t else (k', v) :: pushEntry t k x

/-- Same idiom at value type `List Nat` (used for the vertical-cluster buckets). -/
def pushEntryN {κ : Type} [DecidableEq κ] : List (κ × List Nat) → κ → Nat → List (κ × List Nat)
  | [], k, x => [(k, [x])]
  | (k', v) :: t, k, x => if k = k' then (k, v ++ [x]) :: t else (k', v) :: pushEntryN t k x

/-! ### Disjoint-Set Store (`class UnionFind`)

```ts
class UnionFind {
  parent: Map<string, string>;
  find(x) {
    if (!this.parent.has(x)) this.parent.set(x, x);
    if (this.parent.get(x) !== x) this.parent.set(x, this.find(this.parent.get(x)!));
    return this.parent.get(x)!;
  }
  union(x, y) {
    const rootX = this.find(x); const rootY = this.find(y);
    if (rootX !== rootY) this.parent.set(rootX, rootY);
  }
}
```

`find`'s recursion is modelled with fuel `parent.length + 1`; under the
acyclicity invariant proved below this fuel is never exhausted. -/

structure UnionFind where
  parent : List (String × String)
deriving Repr, DecidableEq

/-- `new UnionFind()`. -/
def UnionFind.empty : UnionFind := ⟨[]⟩

/-- Fuelled body of `find`. The recursive call runs on the same map (the JS
code computes `this.parent.get(x)` before mutating), and the compression
write `parent.set(x, r)` is applied to the state returned by the recursion. -/
def findAux : Nat → UnionFind → String → String × UnionFind
  | 0, uf, x => (x, uf)
  | fuel + 1, uf, x =>
    match getKV uf.parent x with
    | none => (x, ⟨setKV uf.parent x x⟩)
    | some p =>
      if p = x then (x, uf)
      else
        let r := (findAux fuel uf p).1
        let uf' := (findAux fuel uf p).2
        (r, ⟨setKV uf'.parent x r⟩)

/-- `find(x)`: returns the representative and the updated store. -/
def UnionFind.find (uf : UnionFind) (x : String) : String × UnionFind :=
  findAux (uf.parent.length + 1) uf x

/-- `union(x, y)`. -/
def UnionFind.union (uf : UnionFind) (x : String) (y : String) : UnionFind :=
  let rx := (uf.find x).1
  let uf1 := (uf.find x).2
  let ry := (uf1.find y).1
  let uf2 := (uf1.find y).2
  if rx ≠ ry then ⟨setKV uf2.parent rx ry⟩ else uf2

/-- Follow parent links for at most `fuel` steps; `some r` means a self-rooted
key `r` was reached. -/
def chase (uf : UnionFind) : Nat → String → Option String
  | 0, _ => none
  | fuel + 1, x =>
    match getKV uf.parent x with
    | none => none
    | some p => if p = x then some x else chase uf fuel p

/-- The representative of `x` determined by the parent map alone (unregistered
keys are their own representative). Under the invariant below, fuel
`parent.length` always suffices for registered keys. -/
def rootOf (uf : UnionFind) (x : String) : String :=
  (chase uf uf.parent.length x).getD x

/-- Acyclicity invariant: some measure strictly decreases along non-trivial
parent links, and every non-trivial parent is itself registered. -/
def UFInv (uf : UnionFind) : Prop :=
  ∃ m : String → Nat, ∀ x p, getKV uf.parent x = some p →
    p = x ∨ (m p < m x ∧ (getKV uf.parent p).isSome)

/-! ### Association-list lemmas -/

theorem getKV_setKV_self {κ ν : Type} [DecidableEq κ] (l : List (κ × ν)) (k : κ) (v : ν) :
    getKV (setKV l k v) k = some v := by
  induction l with
  | nil => simp [setKV, getKV]
  | cons h t ih =>
    obtain ⟨k', v'⟩ := h
    by_cases hk : k = k' <;> simp [setKV, getKV, hk, ih]

theorem getKV_setKV_ne {κ ν : Type} [DecidableEq κ] (l : List (κ × ν)) (k z : κ) (v : ν)
    (h : z ≠ k) : getKV (setKV l k v) z = getKV l z := by
  induction l with
  | nil => simp [setKV, getKV, h]
  | cons hd t ih =>
    obtain ⟨k', v'⟩ := hd
    by_cases hk : k = k'
    · subst hk
      simp [setKV, getKV, h]
    · by_cases hz : z = k' <;> simp [setKV, getKV, hk, hz, ih]

theorem length_le_setKV {κ ν : Type} [DecidableEq κ] (l : List (κ × ν)) (k : κ) (v : ν) :
    l.length ≤ (setKV l k v).length := by
  induction l with
  | nil => simp [setKV]
  | cons hd t ih =>
    obtain ⟨k', v'⟩ := hd
    by_cases hk : k = k' <;> simp [setKV, hk] <;> omega

theorem length_setKV_isSome {κ ν : Type} [DecidableEq κ] (l : List (κ × ν)) (k : κ) (v : ν)
    (h : (getKV l k).isSome) : (setKV l k v).length = l.length := by
  induction l with
  | nil => simp [getKV] at h
  | cons hd t ih =>
    obtain ⟨k', v'⟩ := hd
    by_cases hk : k = k'
    · simp [setKV, hk]
    · simp [getKV, hk] at h
      simp [setKV, hk, ih h]

theorem getKV_some_mem_keys {κ ν : Type} [DecidableEq κ] (l : List (κ × ν)) (k : κ) (v : ν)
    (h : getKV l k = some v) : k ∈ l.map Prod.fst := by
  induction l with
  | nil => simp [getKV] at h
  | cons hd t ih =>
    obtain ⟨k', v'⟩ := hd
    by_cases hk : k = k'
    · simp [hk]
    · simp [getKV, hk] at h
      simp [ih h]

/-! ### `chase` lemmas -/

theorem chase_succ_none {uf : UnionFind} {x : String} (h : getKV uf.parent x = none)
    (n : Nat) : chase uf (n + 1) x = none := by
  simp [chase, h]

theorem chase_succ_some {uf : UnionFind} {x p : String} (h : getKV uf.parent x = some p)
    (n : Nat) : chase uf (n + 1) x = if p = x then some x else chase uf n p := by
  simp [chase, h]

theorem chase_mono (uf : UnionFind) :
    ∀ n n' x r, chase uf n x = some r → n ≤ n' → chase uf n' x = some r := by
  intro n
  induction n with
  | zero => intro n' x r h; simp [chase] at h
  | succ n ih =>
    intro n' x r h hle
    obtain ⟨n'', rfl⟩ : ∃ m, n' = m + 1 := ⟨n' - 1, by omega⟩
    cases hgx : getKV uf.parent x with
    | none => rw [chase_succ_none hgx] at h; exact absurd h (by simp)
    | some p =>
      rw [chase_succ_some hgx] at h
      rw [chase_succ_some hgx]
      by_cases hp : p = x
      · simpa [hp] using h
      · simp only [hp, if_false] at h ⊢
        exact ih n'' p r h (by omega)

theorem chase_root (uf : UnionFind) :
    ∀ n x r, chase uf n x = some r → getKV uf.parent r = some r := by
  intro n
  induction n with
  | zero => intro x r h; simp [chase] at h
  | succ n ih =>
    intro x r h
    cases hgx : getKV uf.parent x with
    | none => rw [chase_succ_none hgx] at h; exact absurd h (by simp)
    | some p =>
      rw [chase_succ_some hgx] at h
      by_cases hp : p = x
      · rw [hp] at hgx h
        rw [if_pos rfl] at h
        injection h with h
        subst h
        exact hgx
      · simp only [hp, if_false] at h
        exact ih p r h

theorem chase_ne_of_step (uf : UnionFind) {x p : String} (hgx : getKV uf.parent x = some p)
    (hp : p ≠ x) {n : Nat} {r : String} (h : chase uf n p = some r) : r ≠ x := by
  intro hrx
  have hroot := chase_root uf n p r h
  rw [hrx, hgx] at hroot
  exact hp (by injection hroot)

theorem chase_none_unregistered (uf : UnionFind) (x : String)
    (h : getKV uf.parent x = none) : ∀ n, chase uf n x = none := by
  intro n
  cases n with
  | zero => simp [chase]
  | succ n => exact chase_succ_none h n

theorem chase_registered (uf : UnionFind) {n : Nat} {x r : String}
    (h : chase uf n x = some r) : (getKV uf.parent x).isSome := by
  cases n with
  | zero => simp [chase] at h
  | succ n =>
    cases hgx : getKV uf.parent x with
    | none => rw [chase_succ_none hgx] at h; exact absurd h (by simp)
    | some p => simp

/-! ### The invariant gives `chase` enough fuel -/

theorem le_foldr_max (l : List Nat) (a : Nat) (h : a ∈ l) : a ≤ l.foldr max 0 := by
  induction l with
  | nil => simp at h
  | cons b t ih =>
    rcases List.mem_cons.mp h with rfl | h
    · exact le_max_left _ _
    · exact le_trans (ih h) (le_max_right _ _)

theorem chase_card_isSome (uf : UnionFind) (m : String → Nat)
    (hm : ∀ x p, getKV uf.parent x = some p → p = x ∨ (m p < m x ∧ (getKV uf.parent p).isSome)) :
    ∀ n x, m x = n → (getKV uf.parent x).isSome →
      (chase uf (((uf.parent.map Prod.fst).toFinset.filter (fun k => m k ≤ m x)).card) x).isSome := by
  intro n
  induction n using Nat.strong_induction_on with
  | _ n ih =>
    intro x hmx hx
    obtain ⟨p, hp⟩ := Option.isSome_iff_exists.mp hx
    have hxmem : x ∈ (uf.parent.map Prod.fst).toFinset :=
      List.mem_toFinset.mpr (getKV_some_mem_keys _ _ _ hp)
    have hxfil : x ∈ (uf.parent.map Prod.fst).toFinset.filter (fun k => m k ≤ m x) :=
      Finset.mem_filter.mpr ⟨hxmem, le_refl _⟩
    have hcard : 1 ≤ ((uf.parent.map Prod.fst).toFinset.filter (fun k => m k ≤ m x)).card :=
      Finset.card_pos.mpr ⟨x, hxfil⟩
    obtain ⟨c, hc⟩ := Nat.exists_eq_succ_of_ne_zero (by omega :
      ((uf.parent.map Prod.fst).toFinset.filter (fun k => m k ≤ m x)).card ≠ 0)
    rw [hc, chase_succ_some hp]
    by_cases hpx : p = x
    · simp [hpx]
    · simp only [hpx, if_false]
      rcases hm x p hp with h | ⟨hlt, hpreg⟩
      · exact absurd h hpx
      · have hsub : (uf.parent.map Prod.fst).toFinset.filter (fun k => m k ≤ m p) ⊆
            ((uf.parent.map Prod.fst).toFinset.filter (fun k => m k ≤ m x)).erase x := by
          intro k hk
          obtain ⟨hk1, hk2⟩ := Finset.mem_filter.mp hk
          refine Finset.mem_erase.mpr
            ⟨?_, Finset.mem_filter.mpr ⟨hk1, le_trans hk2 (le_of_lt hlt)⟩⟩
          intro hkx
          subst hkx
          omega
        have hle : ((uf.parent.map Prod.fst).toFinset.filter (fun k => m k ≤ m p)).card ≤ c := by
          have hcc := Finset.card_le_card hsub
          rw [Finset.card_erase_of_mem hxfil, hc] at hcc
          omega
        have hrec := ih (m p) (by omega) p rfl hpreg
        obtain ⟨r, hr⟩ := Option.isSome_iff_exists.mp hrec
        exact Option.isSome_iff_exists.mpr ⟨r, chase_mono uf _ c p r hr hle⟩

theorem chase_len_isSome (uf : UnionFind) (hInv : UFInv uf) (x : String)
    (hx : (getKV uf.parent x).isSome) : (chase uf uf.parent.length x).isSome := by
  obtain ⟨m, hm⟩ := hInv
  have h := chase_card_isSome uf m hm (m x) x rfl hx
  obtain ⟨r, hr⟩ := Option.isSome_iff_exists.mp h
  have hcle : ((uf.parent.map Prod.fst).toFinset.filter (fun k => m k ≤ m x)).card ≤
      uf.parent.length := by
    calc ((uf.parent.map Prod.fst).toFinset.filter (fun k => m k ≤ m x)).card
        ≤ (uf.parent.map Prod.fst).toFinset.card := Finset.card_le_card (Finset.filter_subset _ _)
      _ ≤ (uf.parent.map Prod.fst).length := List.toFinset_card_le _
      _ = uf.parent.length := by simp
  exact Option.isSome_iff_exists.mpr ⟨r, chase_mono uf _ _ x r hr hcle⟩

/-! ### `rootOf` lemmas -/

/-- The representative of `x` as a relation: either a `chase` reaches `r`, or
`x` is unregistered and is its own representative. -/
def RootSpec (uf : UnionFind) (x r : String) : Prop :=
  (∃ n, chase uf n x = some r) ∨ (getKV uf.parent x = none ∧ r = x)

theorem rootSpec_rootOf (uf : UnionFind) (hInv : UFInv uf) (x : String) :
    RootSpec uf x (rootOf uf x) := by
  cases hx : getKV uf.parent x with
  | none =>
    right
    refine ⟨hx, ?_⟩
    rw [rootOf, chase_none_unregistered uf x hx]
    rfl
  | some p =>
    left
    have h := chase_len_isSome uf hInv x (by simp [hx])
    obtain ⟨r, hr⟩ := Option.isSome_iff_exists.mp h
    refine ⟨uf.parent.length, ?_⟩
    rw [rootOf, hr]
    rfl

theorem rootSpec_unique (uf : UnionFind) {x r r' : String}
    (h1 : RootSpec uf x r) (h2 : RootSpec uf x r') : r = r' := by
  rcases h1 with ⟨n, hn⟩ | ⟨hx, rfl⟩
  · rcases h2 with ⟨n', hn'⟩ | ⟨hx', rfl⟩
    · have ha := chase_mono uf n (max n n') x r hn (le_max_left _ _)
      have hb := chase_mono uf n' (max n n') x r' hn' (le_max_right _ _)
      rw [ha] at hb
      injection hb
    · have := chase_registered uf hn
      rw [hx'] at this
      simp at this
  · rcases h2 with ⟨n', hn'⟩ | ⟨hx', rfl⟩
    · have := chase_registered uf hn'
      rw [hx] at this
      simp at this
    · rfl

theorem rootOf_eq_of_rootSpec (uf : UnionFind) (hInv : UFInv uf) {x r : String}
    (h : RootSpec uf x r) : rootOf uf x = r :=
  rootSpec_unique uf (rootSpec_rootOf uf hInv x) h

theorem rootOf_eq_of_chase (uf : UnionFind) (hInv : UFInv uf) {n : Nat} {x r : String}
    (h : chase uf n x = some r) : rootOf uf x = r :=
  rootOf_eq_of_rootSpec uf hInv (Or.inl ⟨n, h⟩)

theorem rootOf_unregistered (uf : UnionFind) {x : String} (h : getKV uf.parent x = none) :
    rootOf uf x = x := by
  rw [rootOf, chase_none_unregistered uf x h]
  rfl

theorem rootOf_self_root (uf : UnionFind) {r : String} (h : getKV uf.parent r = some r) :
    rootOf uf r = r := by
  have hlen : 1 ≤ uf.parent.length := by
    cases hp : uf.parent with
    | nil => rw [hp] at h; simp [getKV] at h
    | cons a t => simp [hp]
  obtain ⟨l, hl⟩ := Nat.exists_eq_succ_of_ne_zero (by omega : uf.parent.length ≠ 0)
  rw [rootOf, hl, chase_succ_some h, if_pos rfl]
  rfl

theorem rootOf_step (uf : UnionFind) (hInv : UFInv uf) {x p : String}
    (hgx : getKV uf.parent x = some p) : rootOf uf x = rootOf uf p := by
  by_cases hp : p = x
  · rw [hp]
  · have hx := chase_len_isSome uf hInv x (by simp [hgx])
    obtain ⟨r, hr0⟩ := Option.isSome_iff_exists.mp hx
    have h1 : rootOf uf x = r := rootOf_eq_of_chase uf hInv hr0
    have hlen : 1 ≤ uf.parent.length := by
      cases hq : uf.parent with
      | nil => rw [hq] at hgx; simp [getKV] at hgx
      | cons a t => simp [hq]
    obtain ⟨l, hl⟩ := Nat.exists_eq_succ_of_ne_zero (by omega : uf.parent.length ≠ 0)
    rw [hl, chase_succ_some hgx, if_neg hp] at hr0
    have h2 : rootOf uf p = r := rootOf_eq_of_chase uf hInv hr0
    rw [h1, h2]

theorem rootOf_registered_isRoot (uf : UnionFind) (hInv : UFInv uf) {x p : String}
    (hgx : getKV uf.parent x = some p) :
    getKV uf.parent (rootOf uf x) = some (rootOf uf x) := by
  have hx := chase_len_isSome uf hInv x (by simp [hgx])
  obtain ⟨r, hr⟩ := Option.isSome_iff_exists.mp hx
  rw [rootOf_eq_of_chase uf hInv hr]
  exact chase_root uf _ x r hr

theorem chase_measure_lt (uf : UnionFind) (m : String → Nat)
    (hm : ∀ x p, getKV uf.parent x = some p → p = x ∨ (m p < m x ∧ (getKV uf.parent p).isSome)) :
    ∀ n x r, chase uf n x = some r → r = x ∨ m r < m x := by
  intro n
  induction n with
  | zero => intro x r h; simp [chase] at h
  | succ n ih =>
    intro x r h
    cases hgx : getKV uf.parent x with
    | none => rw [chase_succ_none hgx] at h; exact absurd h (by simp)
    | some p =>
      rw [chase_succ_some hgx] at h
      by_cases hp : p = x
      · rw [if_pos hp] at h
        injection h with h
        exact Or.inl h.symm
      · rw [if_neg hp] at h
        rcases hm x p hgx with hc | ⟨hlt, _⟩
        · exact absurd hc hp
        · rcases ih p r h with rfl | hlt2
          · exact Or.inr hlt
          · exact Or.inr (lt_trans hlt2 hlt)

/-! ### Registration, compression and re-rooting: effect on representatives -/

theorem chase_setKV_new (uf : UnionFind) (hInv : UFInv uf) {x : String}
    (hx : getKV uf.parent x = none) :
    ∀ n z r, chase uf n z = some r → chase (⟨setKV uf.parent x x⟩ : UnionFind) n z = some r := by
  obtain ⟨m, hm⟩ := id hInv
  intro n
  induction n with
  | zero => intro z r h; simp [chase] at h
  | succ n ih =>
    intro z r h
    cases hgz : getKV uf.parent z with
    | none => rw [chase_succ_none hgz] at h; exact absurd h (by simp)
    | some pz =>
      have hzx : z ≠ x := by
        intro he
        rw [he, hx] at hgz
        cases hgz
      have hgz' : getKV (setKV uf.parent x x) z = some pz := by
        rw [getKV_setKV_ne _ _ _ _ hzx]
        exact hgz
      rw [chase_succ_some hgz] at h
      rw [@chase_succ_some ⟨setKV uf.parent x x⟩ _ _ hgz']
      by_cases hpz : pz = z
      · rw [if_pos hpz] at h ⊢; exact h
      · rw [if_neg hpz] at h ⊢
        exact ih pz r h

theorem rootSpec_setKV_new (uf : UnionFind) (hInv : UFInv uf) {x : String}
    (hx : getKV uf.parent x = none) :
    ∀ z r, RootSpec uf z r → RootSpec (⟨setKV uf.parent x x⟩ : UnionFind) z r := by
  rintro z r (⟨n, hn⟩ | ⟨hz, hrz⟩)
  · exact Or.inl ⟨n, chase_setKV_new uf hInv hx n z r hn⟩
  · by_cases hzx : z = x
    · refine Or.inl ⟨1, ?_⟩
      have h1 : getKV (setKV uf.parent x x) z = some x := by
        rw [hzx]
        exact getKV_setKV_self _ _ _
      rw [hrz, @chase_succ_some ⟨setKV uf.parent x x⟩ _ _ h1, if_pos hzx.symm]
    · right
      refine ⟨?_, hrz⟩
      rw [getKV_setKV_ne _ _ _ _ hzx]
      exact hz

theorem chase_setKV_reroot (uf : UnionFind) (hInv : UFInv uf) {x t : String}
    (hx : (getKV uf.parent x).isSome) (ht : getKV uf.parent t = some t) (htx : t ≠ x)
    (hcase : rootOf uf x = x ∨ rootOf uf x = t) :
    ∀ n z r, chase uf n z = some r →
      ∃ n', chase (⟨setKV uf.parent x t⟩ : UnionFind) n' z =
        some (if r = rootOf uf x then t else r) := by
  intro n
  induction n with
  | zero => intro z r h; simp [chase] at h
  | succ n ih =>
    intro z r h
    cases hgz : getKV uf.parent z with
    | none => rw [chase_succ_none hgz] at h; exact absurd h (by simp)
    | some pz =>
      rw [chase_succ_some hgz] at h
      by_cases hzx : z = x
      · have hch : chase uf (n + 1) z = some r := by
          rw [chase_succ_some hgz]
          exact h
        have hr : r = rootOf uf x := by
          rw [← hzx]
          exact (rootOf_eq_of_chase uf hInv hch).symm
        rw [if_pos hr]
        refine ⟨2, ?_⟩
        have htz : t ≠ z := by
          intro hh
          rw [hzx] at hh
          exact htx hh
        have h1 : getKV (setKV uf.parent x t) z = some t := by
          rw [hzx]
          exact getKV_setKV_self _ _ _
        have h2 : getKV (setKV uf.parent x t) t = some t := by
          rw [getKV_setKV_ne _ _ _ _ htx]
          exact ht
        rw [@chase_succ_some ⟨setKV uf.parent x t⟩ _ _ h1, if_neg htz,
          @chase_succ_some ⟨setKV uf.parent x t⟩ _ _ h2, if_pos rfl]
      · have hgz' : getKV (setKV uf.parent x t) z = some pz := by
          rw [getKV_setKV_ne _ _ _ _ hzx]
          exact hgz
        by_cases hpz : pz = z
        · rw [if_pos hpz] at h
          injection h with h
          subst h
          by_cases hzr : z = rootOf uf x
          · rcases hcase with hc | hc
            · exact absurd (hzr.trans hc) hzx
            · have hzt : z = t := hzr.trans hc
              rw [if_pos hzr]
              refine ⟨1, ?_⟩
              rw [@chase_succ_some ⟨setKV uf.parent x t⟩ _ _ hgz', if_pos hpz, hzt]
          · rw [if_neg hzr]
            refine ⟨1, ?_⟩
            rw [@chase_succ_some ⟨setKV uf.parent x t⟩ _ _ hgz', if_pos hpz]
        · rw [if_neg hpz] at h
          obtain ⟨n', hn'⟩ := ih pz r h
          refine ⟨n' + 1, ?_⟩
          rw [@chase_succ_some ⟨setKV uf.parent x t⟩ _ _ hgz', if_neg hpz]
          exact hn'

theorem rootSpec_setKV_reroot (uf : UnionFind) (hInv : UFInv uf) {x t : String}
    (hx : (getKV uf.parent x).isSome) (ht : getKV uf.parent t = some t) (htx : t ≠ x)
    (hcase : rootOf uf x = x ∨ rootOf uf x = t) :
    ∀ z r, RootSpec uf z r →
      RootSpec (⟨setKV uf.parent x t⟩ : UnionFind) z (if r = rootOf uf x then t else r) := by
  rintro z r (⟨n, hn⟩ | ⟨hz, hrz⟩)
  · obtain ⟨n', hn'⟩ := chase_setKV_reroot uf hInv hx ht htx hcase n z r hn
    exact Or.inl ⟨n', hn'⟩
  · obtain ⟨p, hp⟩ := Option.isSome_iff_exists.mp hx
    have hzx : z ≠ x := by
      intro he
      rw [he, hp] at hz
      cases hz
    have hzr : r ≠ rootOf uf x := by
      intro he
      have hroot := rootOf_registered_isRoot uf hInv hp
      rw [← he, hrz, hz] at hroot
      cases hroot
    rw [if_neg hzr]
    right
    refine ⟨?_, hrz⟩
    rw [getKV_setKV_ne _ _ _ _ hzx]
    exact hz

/-! ### The invariant is preserved by registration, compression and union -/

theorem UFInv_setKV_new (uf : UnionFind) (hInv : UFInv uf) {x : String}
    (hx : getKV uf.parent x = none) : UFInv (⟨setKV uf.parent x x⟩ : UnionFind) := by
  obtain ⟨m, hm⟩ := hInv
  refine ⟨m, ?_⟩
  intro z q hq
  by_cases hzx : z = x
  · left
    rw [hzx, getKV_setKV_self] at hq
    injection hq with hq
    rw [← hq, hzx]
  · rw [getKV_setKV_ne _ _ _ _ hzx] at hq
    rcases hm z q hq with h | ⟨hlt, hreg⟩
    · exact Or.inl h
    · refine Or.inr ⟨hlt, ?_⟩
      by_cases hqx : q = x
      · rw [hqx, getKV_setKV_self]
        simp
      · rw [getKV_setKV_ne _ _ _ _ hqx]
        exact hreg

theorem UFInv_setKV_compress (uf : UnionFind) (hInv : UFInv uf) {x p r : String}
    (hgx : getKV uf.parent x = some p) (hpx : p ≠ x) (hr : r = rootOf uf x) :
    UFInv (⟨setKV uf.parent x r⟩ : UnionFind) := by
  obtain ⟨m, hm⟩ := id hInv
  have hsome := chase_len_isSome uf hInv x (by simp [hgx])
  obtain ⟨r0, hr0⟩ := Option.isSome_iff_exists.mp hsome
  have hrr0 : r = r0 := by rw [hr, rootOf_eq_of_chase uf hInv hr0]
  obtain ⟨l, hl⟩ := Nat.exists_eq_succ_of_ne_zero (by
    intro hzero
    rw [hzero] at hr0
    simp [chase] at hr0 : uf.parent.length ≠ 0)
  have hstep : chase uf l p = some r0 := by
    rw [hl, chase_succ_some hgx, if_neg hpx] at hr0
    exact hr0
  have hrx : r ≠ x := by
    rw [hrr0]
    exact chase_ne_of_step uf hgx hpx hstep
  have hrlt : m r < m x := by
    rcases chase_measure_lt uf m hm _ x r0 hr0 with h | h
    · exact absurd (hrr0.trans h) hrx
    · rw [hrr0]
      exact h
  have hrreg : getKV uf.parent r = some r := by
    rw [hrr0]
    exact chase_root uf _ x r0 hr0
  refine ⟨m, ?_⟩
  intro z q hq
  by_cases hzx : z = x
  · rw [hzx, getKV_setKV_self] at hq
    injection hq with hq
    refine Or.inr ⟨?_, ?_⟩
    · rw [← hq, hzx]
      exact hrlt
    · rw [← hq]
      by_cases hrx2 : r = x
      · exact absurd hrx2 hrx
      · rw [getKV_setKV_ne _ _ _ _ hrx]
        simp [hrreg]
  · rw [getKV_setKV_ne _ _ _ _ hzx] at hq
    rcases hm z q hq with h | ⟨hlt, hreg⟩
    · exact Or.inl h
    · refine Or.inr ⟨hlt, ?_⟩
      by_cases hqx : q = x
      · rw [hqx, getKV_setKV_self]
        simp
      · rw [getKV_setKV_ne _ _ _ _ hqx]
        exact hreg

theorem UFInv_setKV_union (uf : UnionFind) (hInv : UFInv uf) {x t : String}
    (hgx : getKV uf.parent x = some x) (ht : getKV uf.parent t = some t) (htx : t ≠ x) :
    UFInv (⟨setKV uf.parent x t⟩ : UnionFind) := by
  obtain ⟨m, hm⟩ := id hInv
  refine ⟨fun z => if rootOf uf z = x then m z + ((uf.parent.map (fun e => m e.1)).foldr max 0 + 1)
    else m z, ?_⟩
  intro z q hq
  by_cases hzx : z = x
  · rw [hzx, getKV_setKV_self] at hq
    injection hq with hq
    right
    constructor
    · have hrt : rootOf uf t = t := rootOf_self_root uf ht
      have hrx : rootOf uf x = x := rootOf_self_root uf hgx
      rw [← hq, hzx]
      simp only []
      rw [hrt, hrx, if_neg htx, if_pos rfl]
      have htk : t ∈ uf.parent.map Prod.fst := getKV_some_mem_keys _ _ _ ht
      have hmem : m t ∈ uf.parent.map (fun e => m e.1) := by
        obtain ⟨e, he, hfst⟩ := List.mem_map.mp htk
        exact List.mem_map.mpr ⟨e, he, by rw [hfst]⟩
      have := le_foldr_max _ _ hmem
      omega
    · rw [← hq, getKV_setKV_ne _ _ _ _ htx]
      simp [ht]
  · rw [getKV_setKV_ne _ _ _ _ hzx] at hq
    rcases hm z q hq with h | ⟨hlt, hreg⟩
    · exact Or.inl h
    · right
      constructor
      · have hstep : rootOf uf z = rootOf uf q := rootOf_step uf hInv hq
        simp only []
        by_cases hroot : rootOf uf z = x
        · rw [hroot] at hstep
          rw [if_pos hstep.symm, if_pos hroot]
          omega
        · have hq' : ¬ rootOf uf q = x := by
            rw [← hstep]
            exact hroot
          rw [if_neg hq', if_neg hroot]
          exact hlt
      · by_cases hqx : q = x
        · rw [hqx, getKV_setKV_self]
          simp
        · rw [getKV_setKV_ne _ _ _ _ hqx]
          exact hreg

/-! ### Full specification of `find` and `union` under the invariant -/

theorem findAux_spec :
    ∀ fuel (uf : UnionFind) (x : String), UFInv uf →
      ((chase uf fuel x).isSome ∨ (getKV uf.parent x = none ∧ 1 ≤ fuel)) →
      (findAux fuel uf x).1 = rootOf uf x ∧
      UFInv (findAux fuel uf x).2 ∧
      (∀ z, rootOf (findAux fuel uf x).2 z = rootOf uf z) ∧
      (∀ z, (getKV uf.parent z).isSome → (getKV (findAux fuel uf x).2.parent z).isSome) ∧
      (∀ z, getKV uf.parent z = some z → getKV (findAux fuel uf x).2.parent z = some z) ∧
      getKV (findAux fuel uf x).2.parent (rootOf uf x) = some (rootOf uf x) := by
  intro fuel
  induction fuel with
  | zero =>
    intro uf x hInv hfuel
    rcases hfuel with h | ⟨_, h⟩
    · simp [chase] at h
    · omega
  | succ fuel ih =>
    intro uf x hInv hfuel
    cases hgx : getKV uf.parent x with
    | none =>
      have heq : findAux (fuel + 1) uf x = (x, ⟨setKV uf.parent x x⟩) := by
        simp [findAux, hgx]
      rw [heq]
      have hroot : rootOf uf x = x := rootOf_unregistered uf hgx
      have hInv' := UFInv_setKV_new uf hInv hgx
      refine ⟨by simp [hroot], hInv', ?_, ?_, ?_, ?_⟩
      · intro z
        exact rootOf_eq_of_rootSpec _ hInv'
          (rootSpec_setKV_new uf hInv hgx z _ (rootSpec_rootOf uf hInv z))
      · intro z hz
        by_cases hzx : z = x
        · rw [hzx]
          simp [getKV_setKV_self]
        · simp only
          rw [getKV_setKV_ne _ _ _ _ hzx]
          exact hz
      · intro z hz
        by_cases hzx : z = x
        · rw [hzx, hgx] at hz
          cases hz
        · simp only
          rw [getKV_setKV_ne _ _ _ _ hzx]
          exact hz
      · rw [hroot]
        exact getKV_setKV_self _ _ _
    | some p =>
      by_cases hpx : p = x
      · have heq : findAux (fuel + 1) uf x = (x, uf) := by
          simp [findAux, hgx, hpx]
        rw [heq]
        rw [hpx] at hgx
        have hroot : rootOf uf x = x := rootOf_self_root uf hgx
        exact ⟨hroot.symm, hInv, fun z => rfl, fun z hz => hz, fun z hz => hz,
          by rw [hroot]; exact hgx⟩
      · have hchx : (chase uf (fuel + 1) x).isSome := by
          rcases hfuel with h | ⟨hnone, _⟩
          · exact h
          · rw [hgx] at hnone
            cases hnone
        have hchp : (chase uf fuel p).isSome := by
          rw [chase_succ_some hgx, if_neg hpx] at hchx
          exact hchx
        obtain ⟨H1, H2, H3, H4, H5, H6⟩ := ih uf p hInv (Or.inl hchp)
        have heq : findAux (fuel + 1) uf x =
            ((findAux fuel uf p).1, ⟨setKV (findAux fuel uf p).2.parent x (findAux fuel uf p).1⟩) := by
          simp [findAux, hgx, hpx]
        rw [heq]
        have hRx : rootOf uf x = rootOf uf p := rootOf_step uf hInv hgx
        have hR : (findAux fuel uf p).1 = rootOf uf x := by rw [H1, hRx]
        obtain ⟨r0, hr0⟩ := Option.isSome_iff_exists.mp hchp
        have hr0R : rootOf uf p = r0 := rootOf_eq_of_chase uf hInv hr0
        have hRne : (findAux fuel uf p).1 ≠ x := by
          rw [H1, hr0R]
          exact chase_ne_of_step uf hgx hpx hr0
        have hxreg : (getKV (findAux fuel uf p).2.parent x).isSome := H4 x (by simp [hgx])
        obtain ⟨px, hpx2⟩ := Option.isSome_iff_exists.mp hxreg
        have hpx2ne : px ≠ x := by
          intro he
          rw [he] at hpx2
          have hself : rootOf (findAux fuel uf p).2 x = x := rootOf_self_root _ hpx2
          rw [H3 x] at hself
          exact hRne (by rw [hR, hself])
        have hres2root : rootOf (findAux fuel uf p).2 x = (findAux fuel uf p).1 := by
          rw [H3 x, hR]
        have hrootreg : getKV (findAux fuel uf p).2.parent (findAux fuel uf p).1 =
            some (findAux fuel uf p).1 := by
          rw [H1]
          exact H6
        have hInvF : UFInv ⟨setKV (findAux fuel uf p).2.parent x (findAux fuel uf p).1⟩ :=
          UFInv_setKV_compress (findAux fuel uf p).2 H2 hpx2 hpx2ne hres2root.symm
        have hrootsF : ∀ z, rootOf ⟨setKV (findAux fuel uf p).2.parent x (findAux fuel uf p).1⟩ z =
            rootOf (findAux fuel uf p).2 z := by
          intro z
          have htr := rootSpec_setKV_reroot (findAux fuel uf p).2 H2 hxreg hrootreg hRne
            (Or.inr hres2root) z (rootOf (findAux fuel uf p).2 z)
            (rootSpec_rootOf (findAux fuel uf p).2 H2 z)
          have hval := rootOf_eq_of_rootSpec _ hInvF htr
          by_cases hc : rootOf (findAux fuel uf p).2 z = rootOf (findAux fuel uf p).2 x
          · rw [hval, if_pos hc, hc, hres2root]
          · rw [hval, if_neg hc]
        refine ⟨hR, hInvF, ?_, ?_, ?_, ?_⟩
        · intro z
          rw [hrootsF z, H3 z]
        · intro z hz
          by_cases hzx : z = x
          · rw [hzx]
            simp [getKV_setKV_self]
          · simp only
            rw [getKV_setKV_ne _ _ _ _ hzx]
            exact H4 z hz
        · intro z hz
          by_cases hzx : z = x
          · rw [hzx] at hz
            rw [hz] at hgx
            injection hgx with hgx
            exact absurd hgx.symm hpx
          · simp only
            rw [getKV_setKV_ne _ _ _ _ hzx]
            exact H5 z hz
        · simp only
          rw [← hR, getKV_setKV_ne _ _ _ _ hRne]
          exact hrootreg

theorem find_spec (uf : UnionFind) (x : String) (hInv : UFInv uf) :
    (uf.find x).1 = rootOf uf x ∧ UFInv (uf.find x).2 ∧
    (∀ z, rootOf (uf.find x).2 z = rootOf uf z) ∧
    (∀ z, (getKV uf.parent z).isSome → (getKV (uf.find x).2.parent z).isSome) ∧
    (∀ z, getKV uf.parent z = some z → getKV (uf.find x).2.parent z = some z) ∧
    getKV (uf.find x).2.parent (rootOf uf x) = some (rootOf uf x) := by
  have hfuel : (chase uf (uf.parent.length + 1) x).isSome ∨
      (getKV uf.parent x = none ∧ 1 ≤ uf.parent.length + 1) := by
    cases hgx : getKV uf.parent x with
    | none => exact Or.inr ⟨hgx ▸ rfl, by omega⟩
    | some p =>
      left
      have h := chase_len_isSome uf hInv x (by simp [hgx])
      obtain ⟨r, hr⟩ := Option.isSome_iff_exists.mp h
      exact Option.isSome_iff_exists.mpr ⟨r, chase_mono uf _ _ x r hr (by omega)⟩
  exact findAux_spec (uf.parent.length + 1) uf x hInv hfuel

theorem union_spec (uf : UnionFind) (a b : String) (hInv : UFInv uf) :
    UFInv (uf.union a b) ∧
    (∀ z, rootOf (uf.union a b) z =
      if rootOf uf z = rootOf uf a then rootOf uf b else rootOf uf z) := by
  obtain ⟨F1a, F2a, F3a, F4a, F5a, F6a⟩ := find_spec uf a hInv
  obtain ⟨F1b, F2b, F3b, F4b, F5b, F6b⟩ := find_spec (uf.find a).2 b F2a
  have hra : (uf.find a).1 = rootOf uf a := F1a
  have hrb : ((uf.find a).2.find b).1 = rootOf uf b := by rw [F1b, F3a b]
  have hroots2 : ∀ z, rootOf ((uf.find a).2.find b).2 z = rootOf uf z := fun z => by
    rw [F3b z, F3a z]
  have hra_reg : getKV ((uf.find a).2.find b).2.parent (uf.find a).1 = some (uf.find a).1 := by
    apply F5b
    rw [hra]
    exact F6a
  have hrb_reg : getKV ((uf.find a).2.find b).2.parent ((uf.find a).2.find b).1 =
      some ((uf.find a).2.find b).1 := by
    rw [hrb, ← F3a b]
    exact F6b
  by_cases hne : (uf.find a).1 = ((uf.find a).2.find b).1
  · have hu : uf.union a b = ((uf.find a).2.find b).2 := by
      simp [UnionFind.union, hne]
    rw [hu]
    refine ⟨F2b, ?_⟩
    intro z
    rw [hroots2 z]
    by_cases hc : rootOf uf z = rootOf uf a
    · rw [if_pos hc, hc, ← hra, hne, hrb]
    · rw [if_neg hc]
  · have hu : uf.union a b =
        ⟨setKV ((uf.find a).2.find b).2.parent (uf.find a).1 ((uf.find a).2.find b).1⟩ := by
      simp [UnionFind.union, hne]
    rw [hu]
    have hrba : ((uf.find a).2.find b).1 ≠ (uf.find a).1 := fun h => hne h.symm
    have hInvF : UFInv
        ⟨setKV ((uf.find a).2.find b).2.parent (uf.find a).1 ((uf.find a).2.find b).1⟩ :=
      UFInv_setKV_union ((uf.find a).2.find b).2 F2b hra_reg hrb_reg hrba
    refine ⟨hInvF, ?_⟩
    intro z
    have h2a : rootOf ((uf.find a).2.find b).2 (uf.find a).1 = (uf.find a).1 :=
      rootOf_self_root _ hra_reg
    have htr := rootSpec_setKV_reroot ((uf.find a).2.find b).2 F2b (by simp [hra_reg]) hrb_reg
      hrba (Or.inl h2a) z (rootOf ((uf.find a).2.find b).2 z)
      (rootSpec_rootOf ((uf.find a).2.find b).2 F2b z)
    have hval := rootOf_eq_of_rootSpec _ hInvF htr
    rw [hval, h2a, hroots2 z, hra, hrb]

/-! ### Claim C10: the parent map stays acyclic across any operation sequence -/

/-- A client-visible operation on the disjoint-set store. -/
inductive UFOp where
  | unionOp (a b : String)
  | findOp (x : String)

/-- Apply one operation (a `find` mutates the store through path compression
and lazy registration). -/
def applyOp (uf : UnionFind) : UFOp → UnionFind
  | .unionOp a b => uf.union a b
  | .findOp x => (uf.find x).2

/-- Run a sequence of operations on a fresh store. -/
def runOps (ops : List UFOp) : UnionFind := ops.foldl applyOp UnionFind.empty

/-- Acyclicity as observed on the parent map: from every registered key the
parent chain reaches a self-rooted key (within `parent.length` steps, so the
recursion in `find` terminates for every key). -/
def Acyclic (uf : UnionFind) : Prop :=
  ∀ x p, getKV uf.parent x = some p →
    ∃ r, chase uf uf.parent.length x = some r ∧ getKV uf.parent r = some r

theorem UFInv_empty : UFInv UnionFind.empty := by
  refine ⟨fun _ => 0, ?_⟩
  intro x p h
  simp [UnionFind.empty, getKV] at h

theorem UFInv_applyOp (uf : UnionFind) (hInv : UFInv uf) (op : UFOp) : UFInv (applyOp uf op) := by
  cases op with
  | unionOp a b => exact (union_spec uf a b hInv).1
  | findOp x => exact (find_spec uf x hInv).2.1

theorem UFInv_runOps (ops : List UFOp) : UFInv (runOps ops) := by
  suffices h : ∀ (l : List UFOp) (uf : UnionFind), UFInv uf → UFInv (l.foldl applyOp uf) by
    exact h ops UnionFind.empty UFInv_empty
  intro l
  induction l with
  | nil => intro uf h; exact h
  | cons op rest ih =>
    intro uf h
    exact ih (applyOp uf op) (UFInv_applyOp uf h op)

theorem acyclic_of_UFInv (uf : UnionFind) (hInv : UFInv uf) : Acyclic uf := by
  intro x p hgx
  have h := chase_len_isSome uf hInv x (by simp [hgx])
  obtain ⟨r, hr⟩ := Option.isSome_iff_exists.mp h
  exact ⟨r, hr, chase_root uf _ x r hr⟩

/-- C10: for every sequence of `union` and `find` operations on the
disjoint-set store, the parent map remains acyclic — following parent links
from any registered key reaches a self-rooted key, so `find` terminates for
every key — and immediately after `union(a, b)`, `find(a)` and `find(b)`
return the same representative. -/
theorem c10_unionFind_acyclic_and_union_joins :
    ∀ ops : List UFOp, Acyclic (runOps ops) ∧
      ∀ a b : String,
        (((runOps ops).union a b).find a).1 = (((runOps ops).union a b).find b).1 := by
  intro ops
  have hInv := UFInv_runOps ops
  refine ⟨acyclic_of_UFInv _ hInv, ?_⟩
  intro a b
  have hu := union_spec (runOps ops) a b hInv
  have hInvU := hu.1
  have hfa := (find_spec ((runOps ops).union a b) a hInvU).1
  have hfb := (find_spec ((runOps ops).union a b) b hInvU).1
  rw [hfa, hfb, hu.2 a, hu.2 b]
  by_cases hc : rootOf (runOps ops) b = rootOf (runOps ops) a
  · rw [if_pos rfl, if_pos hc]
  · rw [if_pos rfl, if_neg hc]

/-! ### Horizontal Cluster Builder (`buildClusters`)

```ts
const buildClusters = (pairs: TProductPair[]): string[][] => {
  const uf = new UnionFind();
  pairs.forEach(([a, b]) => { uf.union(a, b); });
  const clusterMap = new Map<string, string[]>();
  const processedIds = new Set<string>();
  pairs.forEach(([a, b]) => {
    [a, b].forEach(id => {
      if (!processedIds.has(id)) {
        processedIds.add(id);
        const root = uf.find(id);
        if (!clusterMap.has(root)) clusterMap.set(root, []);
        clusterMap.get(root)!.push(id);
      }
    });
  });
  return Array.from(clusterMap.values());
};
```
-/

/-- The stream of pair endpoints in visit order
(`pairs.forEach(([a, b]) => [a, b].forEach(...))`). -/
def endpointList (pairs : List TProductPair) : List String :=
  pairs.foldr (fun p acc => p.1 :: p.2 :: acc) []

/-- One step of the grouping pass: skip processed ids, otherwise find the
representative (mutating the store) and push the id onto its bucket. -/
def addToCluster (st : List (String × List String) × List String × UnionFind) (id : String) :
    List (String × List String) × List String × UnionFind :=
  if id ∈ st.2.1 then st
  else
    (pushEntry st.1 ((st.2.2.find id).1) id, id :: st.2.1, (st.2.2.find id).2)

/-- `buildClusters`: union every pair, then bucket each first-seen endpoint
under its current representative, first-representative-seen order. -/
def buildClusters (pairs : List TProductPair) : List (List String) :=
  let uf := pairs.foldl (fun uf p => uf.union p.1 p.2) UnionFind.empty
  (((endpointList pairs).foldl addToCluster ([], [], uf)).1).map Prod.snd

theorem mem_endpointList (pairs : List TProductPair) (id : String) :
    id ∈ endpointList pairs ↔ ∃ p ∈ pairs, p.1 = id ∨ p.2 = id := by
  induction pairs with
  | nil => simp [endpointList]
  | cons p t ih =>
    simp only [endpointList, List.foldr_cons, List.mem_cons] at *
    constructor
    · rintro (h | h | h)
      · exact ⟨p, Or.inl rfl, Or.inl h.symm⟩
      · exact ⟨p, Or.inl rfl, Or.inr h.symm⟩
      · obtain ⟨q, hq, hh⟩ := ih.mp h
        exact ⟨q, Or.inr hq, hh⟩
    · rintro ⟨q, hq | hq, hh⟩
      · rcases hh with hh | hh
        · left; rw [← hq, hh]
        · right; left; rw [← hq, hh]
      · right; right
        exact ih.mpr ⟨q, hq, hh⟩

theorem count_single (v x : String) : List.count x [v] = if x = v then 1 else 0 := by
  by_cases h : x = v
  · subst h
    simp
  · rw [if_neg h, List.count_eq_zero_of_not_mem]
    simp [h]

theorem count_pushEntry (m : List (String × List String)) (k v x : String) :
    (((pushEntry m k v).map Prod.snd).flatten.count x) =
      ((m.map Prod.snd).flatten.count x) + (if x = v then 1 else 0) := by
  induction m with
  | nil =>
    simp only [pushEntry, List.map_cons, List.map_nil, List.flatten_cons, List.flatten_nil,
      List.append_nil]
    rw [count_single]
    simp
  | cons hd t ih =>
    obtain ⟨k', w⟩ := hd
    by_cases hk : k = k'
    · simp only [pushEntry, if_pos hk, List.map_cons, List.flatten_cons, List.count_append,
        count_single]
      omega
    · simp only [pushEntry, if_neg hk, List.map_cons, List.flatten_cons, List.count_append, ih]
      omega

theorem clusterStep_invariant (l : List String)
    (st : List (String × List String) × List String × UnionFind)
    (hst : ∀ id, ((st.1.map Prod.snd).flatten.count id) = if id ∈ st.2.1 then 1 else 0) :
    ∀ id, (((l.foldl addToCluster st).1.map Prod.snd).flatten.count id) =
      if id ∈ (l.foldl addToCluster st).2.1 then 1 else 0 := by
  induction l generalizing st with
  | nil => exact hst
  | cons a t ih =>
    simp only [List.foldl_cons]
    apply ih
    intro id
    by_cases hmem : a ∈ st.2.1
    · simp only [addToCluster, if_pos hmem]
      exact hst id
    · simp only [addToCluster, if_neg hmem]
      rw [count_pushEntry]
      by_cases hid : id = a
      · rw [hst id, if_pos hid, if_neg (by rw [hid]; exact hmem), if_pos (by rw [hid]; simp)]
      · have hcond : (id ∈ a :: st.2.1) ↔ (id ∈ st.2.1) := by simp [hid]
        rw [hst id, if_neg hid]
        simp only [hcond]
        omega

theorem clusterStep_processed (l : List String) :
    ∀ (st : List (String × List String) × List String × UnionFind) (id : String),
      id ∈ (l.foldl addToCluster st).2.1 ↔ id ∈ l ∨ id ∈ st.2.1 := by
  induction l with
  | nil => intro st id; simp
  | cons a t ih =>
    intro st id
    simp only [List.foldl_cons, List.mem_cons]
    rw [ih]
    by_cases hmem : a ∈ st.2.1
    · simp only [addToCluster, if_pos hmem]
      constructor
      · rintro (h | h)
        · exact Or.inl (Or.inr h)
        · exact Or.inr h
      · rintro ((h | h) | h)
        · rw [h]; exact Or.inr hmem
        · exact Or.inl h
        · exact Or.inr h
    · simp only [addToCluster, if_neg hmem]
      simp only [List.mem_cons]
      constructor
      · rintro (h | h | h)
        · exact Or.inl (Or.inr h)
        · exact Or.inl (Or.inl h)
        · exact Or.inr h
      · rintro ((h | h) | h)
        · exact Or.inr (Or.inl h)
        · exact Or.inl h
        · exact Or.inr (Or.inr h)

/-- C6: every item id appearing in at least one horizontal pair appears in
exactly one cluster of `buildClusters`' output (count one across the
flattened output), and every id appearing in no pair appears in no cluster
(count zero). -/
theorem c6_buildClusters_partitions_endpoints :
    ∀ (pairs : List TProductPair) (id : String),
      ((buildClusters pairs).flatten.count id) = (if id ∈ endpointList pairs then 1 else 0) ∧
      (id ∈ endpointList pairs ↔ ∃ p ∈ pairs, p.1 = id ∨ p.2 = id) := by
  intro pairs id
  refine ⟨?_, mem_endpointList pairs id⟩
  have hinv := clusterStep_invariant (endpointList pairs)
    ([], [], pairs.foldl (fun uf p => uf.union p.1 p.2) UnionFind.empty)
    (by intro i; simp)
  have hproc := clusterStep_processed (endpointList pairs)
    ([], [], pairs.foldl (fun uf p => uf.union p.1 p.2) UnionFind.empty) id
  rw [buildClusters]
  rw [hinv id]
  by_cases h : id ∈ endpointList pairs
  · rw [if_pos (hproc.mpr (Or.inl h)), if_pos h]
  · rw [if_neg (fun hh => by rcases hproc.mp hh with hc | hc; exact h hc; simp at hc), if_neg h]

/-! ### Intra-Cluster Orderer (`sortCluster`)

```ts
const sortCluster = (cluster, pairs, products) => {
  const graph = new Map(); cluster.forEach(id => graph.set(id, new Set()));
  pairs.forEach(([a, b]) => {
    if (cluster.includes(a) && cluster.includes(b)) {
      graph.get(a)!.add(b); graph.get(b)!.add(a);
    }
  });
  let start = cluster[0]; let maxPrice = products.get(start)!.price;
  cluster.forEach(id => {
    const price = products.get(id)!.price;
    if (price > maxPrice) { maxPrice = price; start = id; }
  });
  const queue = [start]; let queueIndex = 0; const visited = new Set([start]);
  const sorted = [];
  while (queueIndex < queue.length) {
    const current = queue[queueIndex++]; sorted.push(current);
    const neighbors = Array.from(graph.get(current)!).filter(n => !visited.has(n));
    neighbors.sort((a, b) => products.get(b)!.price - products.get(a)!.price);
    neighbors.forEach(n => { if (!visited.has(n)) { visited.add(n); queue.push(n); } });
  }
  return sorted.map(id => products.get(id)!);
};
```

`products.get(id)!.price` throws on a missing id (`undefined.price`), and an
empty cluster throws the same way on `cluster[0]`; both are modelled as
`none`. The BFS `while` loop is modelled with the pending queue suffix made
explicit and fuel `cluster.length`, which is provably sufficient. -/

/-- JS `Set.add`: append if absent (insertion order, no duplicates). -/
def addOnce (l : List String) (x : String) : List String :=
  if x ∈ l then l else l ++ [x]

/-- `graph.get(a)!.add(b)` (the key is always present when this is used). -/
def addEdge (g : List (String × List String)) (a b : String) : List (String × List String) :=
  match getKV g a with
  | some s => setKV g a (addOnce s b)
  | none => g

/-- Adjacency construction of `sortCluster`. -/
def buildGraph (cluster : List String) (pairs : List TProductPair) :
    List (String × List String) :=
  pairs.foldl (fun g p =>
      if p.1 ∈ cluster ∧ p.2 ∈ cluster then addEdge (addEdge g p.1 p.2) p.2 p.1 else g)
    (cluster.foldl (fun g id => setKV g id []) [])

/-- Price of a product id; only applied to ids whose lookup succeeds. -/
def priceOf (products : List (String × TGrocery)) (id : String) : Int :=
  ((getKV products id).getD default).price

/-- `neighbors.sort((a, b) => products.get(b)!.price - products.get(a)!.price)`:
the ECMAScript stable sort by descending price. A stable sort with a
consistent comparator determines the output uniquely, so it is modelled by
insertion sort (stable, and structurally recursive so proofs can evaluate
it). -/
def sortByPriceDesc (products : List (String × TGrocery)) (l : List String) : List String :=
  l.insertionSort (fun a b => priceOf products b ≤ priceOf products a)

/-- The BFS loop; returns the visit order and the final visited set. -/
def bfsAux (graph : List (String × List String)) (products : List (String × TGrocery)) :
    Nat → List String → List String → List String × List String
  | 0, _, visited => ([], visited)
  | _ + 1, [], visited => ([], visited)
  | fuel + 1, c :: rest, visited =>
    let ns := sortByPriceDesc products
      (((getKV graph c).getD []).filter (fun n => decide (n ∉ visited)))
    let res := bfsAux graph products fuel (rest ++ ns) (visited ++ ns)
    (c :: res.1, res.2)

/-- `sortCluster`. -/
def sortCluster (cluster : List String) (pairs : List TProductPair)
    (products : List (String × TGrocery)) : Option (List TGrocery) :=
  let graph := buildGraph cluster pairs
  match cluster with
  | [] => none
  | c0 :: _ =>
    match getKV products c0 with
    | none => none
    | some g0 =>
      match cluster.foldlM (fun (st : String × Int) id =>
          match getKV products id with
          | none => none
          | some p => some (if p.price > st.2 then (id, p.price) else st)) (c0, g0.price) with
      | none => none
      | some st =>
        some (((bfsAux graph products cluster.length [st.1] [st.1]).1).map
          (fun id => (getKV products id).getD default))

/-! ### Cluster Ranker (`sortedHorizontalClusters`)

```ts
const horizontalClusters = buildClusters(horizontalPairs);
const sorted = horizontalClusters.map(cluster => sortCluster(cluster, horizontalPairs, productMap));
sorted.sort((a, b) => {
  const maxPriceA = Math.max(...a.map(p => p.price));
  const maxPriceB = Math.max(...b.map(p => p.price));
  return maxPriceB - maxPriceA;
});
```
-/

/-- `Math.max(...cluster.map(p => p.price))`; pipeline clusters are nonempty,
so the default for the empty list is never observed. -/
def clusterMaxPrice (c : List TGrocery) : Int := ((c.map TGrocery.price).max?).getD 0

/-- The ranking comparator `(a, b) => maxPriceB - maxPriceA`: `a` may come
before `b` when `maxPrice b ≤ maxPrice a` (descending). -/
def rankedLE (a b : List TGrocery) : Prop := clusterMaxPrice b ≤ clusterMaxPrice a

instance : DecidableRel rankedLE := fun _ _ => Int.decLe _ _

/-- The pre-ranking cluster list (`buildClusters` output ordered by
`sortCluster`); `none` when some ordering fails on a missing item. -/
def preRankedClusters (pairs : List TProductPair) (products : List (String × TGrocery)) :
    Option (List (List TGrocery)) :=
  (buildClusters pairs).mapM (fun cl => sortCluster cl pairs products)

/-- `sortedHorizontalClusters`: the ranked cluster list (stable sort by
descending maximum price, modelled by insertion sort). -/
def sortedHorizontalClusters (pairs : List TProductPair)
    (products : List (String × TGrocery)) : Option (List (List TGrocery)) :=
  (preRankedClusters pairs products).map (fun cls => List.insertionSort rankedLE cls)

/-- C8: the ranked cluster list is non-increasing by maximum member price,
and the sort is stable: for every price value, the clusters attaining it
keep the relative order they had in the pre-ranking list. -/
theorem c8_cluster_ranking_sorted_stable :
    ∀ (pairs : List TProductPair) (products : List (String × TGrocery))
      (pre out : List (List TGrocery)),
      preRankedClusters pairs products = some pre →
      sortedHorizontalClusters pairs products = some out →
      List.Pairwise rankedLE out ∧
      ∀ v : Int, out.filter (fun c => decide (clusterMaxPrice c = v)) =
        pre.filter (fun c => decide (clusterMaxPrice c = v)) := by
  intro pairs products pre out hpre hout
  have hout2 : out = List.insertionSort rankedLE pre := by
    rw [sortedHorizontalClusters, hpre] at hout
    simpa using hout.symm
  constructor
  · haveI : IsTotal (List TGrocery) rankedLE := ⟨fun a b => Int.le_total _ _⟩
    haveI : IsTrans (List TGrocery) rankedLE := ⟨fun a b c hab hbc => le_trans hbc hab⟩
    rw [hout2]
    exact List.sorted_insertionSort rankedLE pre
  · intro v
    have hpw : (pre.filter (fun c => decide (clusterMaxPrice c = v))).Pairwise rankedLE := by
      have hmem : ∀ c ∈ pre.filter (fun c => decide (clusterMaxPrice c = v)),
          clusterMaxPrice c = v := by
        intro c hc
        have := (List.mem_filter.mp hc).2
        simpa using this
      apply List.pairwise_iff_forall_sublist.mpr
      intro a b hsub
      have ha : a ∈ pre.filter (fun c => decide (clusterMaxPrice c = v)) :=
        hsub.subset (by simp)
      have hb : b ∈ pre.filter (fun c => decide (clusterMaxPrice c = v)) :=
        hsub.subset (by simp)
      rw [rankedLE, hmem a ha, hmem b hb]
    have hstab := List.sublist_insertionSort hpw (List.filter_sublist pre)
    have hperm : List.Perm
        ((List.insertionSort rankedLE pre).filter (fun c => decide (clusterMaxPrice c = v)))
        (pre.filter (fun c => decide (clusterMaxPrice c = v))) :=
      (List.perm_insertionSort rankedLE pre).filter _
    have hsubf := hstab.filter (fun c => decide (clusterMaxPrice c = v))
    have hself : (pre.filter (fun c => decide (clusterMaxPrice c = v))).filter
        (fun c => decide (clusterMaxPrice c = v)) =
        pre.filter (fun c => decide (clusterMaxPrice c = v)) := by
      apply List.filter_eq_self.mpr
      intro a ha
      exact (List.mem_filter.mp ha).2
    rw [hself] at hsubf
    rw [hout2]
    exact (hsubf.eq_of_length hperm.length_eq.symm).symm

/-! ### Vertical Grouping Builder (`analyzeClusterChains`, `buildVerticalClusters`)

The JS `connectionCounts` map is keyed by the string
`` clusterIdxA < clusterIdxB ? `${A}-${B}` : `${B}-${A}` ``; the key is
modelled as the ordered index pair (the encoding is injective). The local
`clusterConnections` adjacency map of `analyzeClusterChains` is never
returned and is omitted. -/

/-- `productToClusterIdx`: item id → index of its ranked cluster. -/
def productToClusterIdx (cs : List (List TGrocery)) : List (String × Nat) :=
  cs.enum.foldl (fun m ci => ci.2.foldl (fun m p => setKV m p.id ci.1) m) []

/-- The normalized pair key. -/
def pairKey (a b : Nat) : Nat × Nat := if a < b then (a, b) else (b, a)

/-- One vertical pair's contribution to the chain-weight table. -/
def chainStep (p2c : List (String × Nat)) (counts : List ((Nat × Nat) × Nat))
    (p : TProductPair) : List ((Nat × Nat) × Nat) :=
  match getKV p2c p.1, getKV p2c p.2 with
  | some ia, some ib =>
    if ia ≠ ib then
      setKV counts (pairKey ia ib) (((getKV counts (pairKey ia ib)).getD 0) + 1)
    else counts
  | _, _ => counts

/-- `analyzeClusterChains`: for each vertical pair whose endpoints resolve to
two different cluster indices, bump that unordered pair's count. -/
def analyzeClusterChains (p2c : List (String × Nat)) (verticalPairs : List TProductPair) :
    List ((Nat × Nat) × Nat) :=
  verticalPairs.foldl (chainStep p2c) []

/-- `connectionCounts.get(pairKey(a, b)) || 0`. -/
def weightOf (counts : List ((Nat × Nat) × Nat)) (a b : Nat) : Nat :=
  (getKV counts (pairKey a b)).getD 0

/-- `sortedHorizontalClusters[i][0]?.id || ''`. -/
def firstId (cs : List (List TGrocery)) (i : Nat) : String :=
  match (cs.getD i []).head? with
  | some p => p.id
  | none => ""

/-- `groupConnections.get(k)!.set(target, w)` (the key is always initialized). -/
def setInner (m : List (Nat × List (Nat × Nat))) (k target : Nat) (w : Nat) :
    List (Nat × List (Nat × Nat)) :=
  match getKV m k with
  | some inner => setKV m k (setKV inner target w)
  | none => m

/-- The per-group weight map, built by the double `forEach` over the group
(JS `Map` iteration order is insertion order; `Map.set` on an existing key
keeps its position, and the repeated symmetric writes store equal values). -/
def groupConnections (counts : List ((Nat × Nat) × Nat)) (group : List Nat) :
    List (Nat × List (Nat × Nat)) :=
  group.foldl (fun m a => group.foldl (fun m b =>
      if a ≠ b then
        if weightOf counts a b > 0 then setInner (setInner m a b (weightOf counts a b)) b a
          (weightOf counts a b)
        else m
      else m) m)
    (group.foldl (fun m i => setKV m i []) [])

/-- `Array.from(connections.values()).reduce((sum, w) => sum + w, 0)`. -/
def totalWeight (gconn : List (Nat × List (Nat × Nat))) (i : Nat) : Nat :=
  ((getKV gconn i).getD []).foldl (fun s e => s + e.2) 0

/-- Start-cluster selection: maximum total weight, ties broken toward the
lexicographically smaller first product id. -/
def pickStart (cs : List (List TGrocery)) (gconn : List (Nat × List (Nat × Nat)))
    (group : List Nat) : Nat :=
  (group.foldl (fun (st : Nat × Nat) ci =>
      if totalWeight gconn ci > st.1 then (totalWeight gconn ci, ci)
      else if totalWeight gconn ci = st.1 ∧ (firstId cs ci).data < (firstId cs st.2).data then (st.1, ci)
      else st)
    (0, group.headI)).2

/-- The `nextCluster`/`maxWeight` scan of the greedy loop (`none` models the
`-1` sentinel). -/
def pickNext (cs : List (List TGrocery)) (gconn : List (Nat × List (Nat × Nat)))
    (ordered visited : List Nat) : Option Nat × Nat :=
  ordered.foldl (fun st vc =>
    ((getKV gconn vc).getD []).foldl (fun (st : Option Nat × Nat) tw =>
      if tw.1 ∉ visited then
        if tw.2 > st.2 then (some tw.1, tw.2)
        else if tw.2 = st.2 ∧ st.1 ≠ none then
          match st.1 with
          | some cur => if (firstId cs tw.1).data < (firstId cs cur).data then (some tw.1, st.2) else st
          | none => st
        else st
      else st) st) ((none : Option Nat), 0)

/-- The greedy ordering loop (`while (ordered.length < group.length)`),
with fuel `group.length` (sufficient: every pass either appends one cluster
or appends the whole sorted remainder and stops). -/
def orderGroupGo (cs : List (List TGrocery)) (gconn : List (Nat × List (Nat × Nat)))
    (group : List Nat) : Nat → List Nat → List Nat → List Nat
  | 0, ordered, _ => ordered
  | fuel + 1, ordered, visited =>
    if ordered.length < group.length then
      match (pickNext cs gconn ordered visited).1 with
      | none =>
        ordered ++ (group.filter (fun c => decide (c ∉ visited))).insertionSort
          (fun a b => (firstId cs a).data ≤ (firstId cs b).data)
      | some nc => orderGroupGo cs gconn group fuel (ordered ++ [nc]) (visited ++ [nc])
    else ordered

/-- Chain-strength reordering of one bucket (buckets of size ≤ 1 are left
unchanged; `group.splice(0, group.length, ...ordered)` replaces the bucket). -/
def orderGroup (cs : List (List TGrocery)) (counts : List ((Nat × Nat) × Nat))
    (group : List Nat) : List Nat :=
  if group.length ≤ 1 then group
  else
    orderGroupGo cs (groupConnections counts group) group group.length
      [pickStart cs (groupConnections counts group) group]
      [pickStart cs (groupConnections counts group) group]

/-- Decimal digits of a natural number, fueled so that it evaluates by
kernel reduction (used only as an injective key encoding for `String(idx)`;
all proofs about the bucketing treat the key opaquely). -/
def natStrGo : Nat → Nat → List Char → List Char
  | 0, _, acc => acc
  | f + 1, n, acc =>
    if n < 10 then Char.ofNat (48 + n) :: acc
    else natStrGo f (n / 10) (Char.ofNat (48 + n % 10) :: acc)

/-- `String(idx)`: the decimal string of a natural number. -/
def natStr (n : Nat) : String := ⟨natStrGo (n + 1) n []⟩

/-- The union-find bucketing over cluster indices (keys `String(idx)`),
ascending index order inside a bucket, first-representative-seen bucket
order. -/
def vufStep (p2c : List (String × Nat)) (uf : UnionFind) (p : TProductPair) : UnionFind :=
  match getKV p2c p.1, getKV p2c p.2 with
  | some ia, some ib => uf.union (natStr ia) (natStr ib)
  | _, _ => uf

def verticalBuckets (cs : List (List TGrocery)) (vp : List TProductPair)
    (p2c : List (String × Nat)) : List (List Nat) :=
  let uf := vp.foldl (vufStep p2c) UnionFind.empty
  (((List.range cs.length).foldl (fun (st : List (String × List Nat) × UnionFind) idx =>
      (pushEntryN st.1 ((st.2.find (natStr idx)).1) idx, (st.2.find (natStr idx)).2))
    ([], uf)).1).map Prod.snd

/-- `buildVerticalClusters`: with no vertical pairs every ranked cluster is
its own singleton group; otherwise bucket by union-find, reorder each bucket
by chain strength, and sort groups by their first member index
(`(a, b) => a[0] - b[0]`). -/
def buildVerticalClusters (cs : List (List TGrocery)) (vp : List TProductPair) :
    List (List Nat) :=
  if vp = [] then (List.range cs.length).map (fun i => [i])
  else
    ((verticalBuckets cs vp (productToClusterIdx cs)).map
        (orderGroup cs (analyzeClusterChains (productToClusterIdx cs) vp))).insertionSort
      (fun a b => a.headI ≤ b.headI)

/-! ### Connection Index (`buildVerticalConnectionMap`)

```ts
verticalPairs.forEach(([productA, productB]) => {
  const clusterIdxA = productToClusterIdx.get(productA);
  const clusterIdxB = productToClusterIdx.get(productB);
  if (clusterIdxA !== undefined && clusterIdxB !== undefined && clusterIdxA !== clusterIdxB) {
    if (!connectionMap.has(productA)) connectionMap.set(productA, []);
    connectionMap.get(productA)!.push(productB);
    if (!connectionMap.has(productB)) connectionMap.set(productB, []);
    connectionMap.get(productB)!.push(productA);
  }
});
```
-/

def connStep (p2c : List (String × Nat)) (m : List (String × List String))
    (p : TProductPair) : List (String × List String) :=
  match getKV p2c p.1, getKV p2c p.2 with
  | some ia, some ib =>
    if ia ≠ ib then pushEntry (pushEntry m p.1 p.2) p.2 p.1 else m
  | _, _ => m

def buildVerticalConnectionMap (cs : List (List TGrocery)) (vp : List TProductPair) :
    List (String × List String) :=
  vp.foldl (connStep (productToClusterIdx cs)) []

/-- A vertical pair qualifies for the connection index when both endpoints
resolve to cluster indices and the indices differ. -/
def qualifiesB (p2c : List (String × Nat)) (p : TProductPair) : Bool :=
  match getKV p2c p.1, getKV p2c p.2 with
  | some ia, some ib => ia ≠ ib
  | _, _ => false


theorem count_getD_pushEntry (m : List (String × List String)) (k v z x : String) :
    ((getKV (pushEntry m k v) z).getD []).count x =
      ((getKV m z).getD []).count x + (if z = k ∧ x = v then 1 else 0) := by
  induction m with
  | nil =>
    by_cases hz : z = k
    · simp [pushEntry, getKV, hz, count_single]
    · simp [pushEntry, getKV, hz]
  | cons hd t ih =>
    obtain ⟨k', w⟩ := hd
    by_cases hk : k = k'
    · subst hk
      by_cases hz : z = k
      · simp [pushEntry, getKV, hz, List.count_append, count_single]
      · simp [pushEntry, getKV, hz]
    · by_cases hz : z = k'
      · have hzk : ¬ (z = k) := by
          intro h
          rw [h] at hz
          exact hk (hz.symm ▸ rfl)
        simp only [pushEntry, if_neg hk, getKV, if_pos hz]
        rw [if_neg (by intro hh; exact hzk hh.1)]
        simp
      · simp [pushEntry, hk, getKV, hz, ih]

theorem connStep_unknown (p2c : List (String × Nat)) (m : List (String × List String))
    (p : TProductPair) (h : qualifiesB p2c p = false) : connStep p2c m p = m := by
  rw [connStep]
  rw [qualifiesB] at h
  cases hg1 : getKV p2c p.1 with
  | none => rfl
  | some ia =>
    cases hg2 : getKV p2c p.2 with
    | none => rfl
    | some ib =>
      rw [hg1, hg2] at h
      simp at h
      simp [h]

theorem connStep_qualify (p2c : List (String × Nat)) (m : List (String × List String))
    (p : TProductPair) (h : qualifiesB p2c p = true) :
    connStep p2c m p = pushEntry (pushEntry m p.1 p.2) p.2 p.1 := by
  rw [connStep]
  rw [qualifiesB] at h
  cases hg1 : getKV p2c p.1 with
  | none => rw [hg1] at h; simp at h
  | some ia =>
    cases hg2 : getKV p2c p.2 with
    | none => rw [hg1, hg2] at h; simp at h
    | some ib =>
      rw [hg1, hg2] at h
      simp only [ne_eq, decide_not] at h
      simp [h]
      intro he
      rw [he] at h
      simp at h

theorem qualifies_ne (p2c : List (String × Nat)) (p : TProductPair)
    (h : qualifiesB p2c p = true) : p.1 ≠ p.2 := by
  intro he
  rw [qualifiesB] at h
  rw [he] at h
  cases hg : getKV p2c p.2 with
  | none => rw [hg] at h; simp at h
  | some i => rw [hg] at h; simp at h

theorem connectionMap_count_aux (p2c : List (String × Nat)) (a b : String) :
    ∀ (vp : List TProductPair) (m : List (String × List String)),
      ((getKV (vp.foldl (connStep p2c) m) a).getD []).count b =
        ((getKV m a).getD []).count b +
        vp.countP (fun p => qualifiesB p2c p && (decide (p = (a, b)) || decide (p = (b, a)))) := by
  intro vp
  induction vp with
  | nil => intro m; simp
  | cons p t ih =>
    intro m
    simp only [List.foldl_cons, List.countP_cons]
    cases hq : qualifiesB p2c p with
    | false =>
      rw [connStep_unknown p2c m p hq, ih m]
      simp [hq]
    | true =>
      rw [connStep_qualify p2c m p hq, ih]
      rw [count_getD_pushEntry, count_getD_pushEntry]
      have hp12 : p.1 ≠ p.2 := qualifies_ne _ _ hq
      have harith : ((if a = p.2 ∧ b = p.1 then 1 else 0) : Nat) +
          (if a = p.1 ∧ b = p.2 then 1 else 0)
          = if (true && (decide (p = (a, b)) || decide (p = (b, a)))) = true
            then 1 else 0 := by
        simp only [Bool.true_and]
        by_cases hA : p = (a, b)
        · have ha1 : p.1 = a := by rw [hA]
          have ha2 : p.2 = b := by rw [hA]
          have hne1 : ¬(a = p.2 ∧ b = p.1) := by
            rintro ⟨h3, h4⟩
            exact hp12 (ha2.trans h4).symm
          rw [if_neg hne1, if_pos ⟨ha1.symm, ha2.symm⟩, if_pos (by simp [hA])]
        · by_cases hB : p = (b, a)
          · have hb1 : p.1 = b := by rw [hB]
            have hb2 : p.2 = a := by rw [hB]
            have hne2 : ¬(a = p.1 ∧ b = p.2) := by
              rintro ⟨h3, h4⟩
              exact hp12 (h3.symm.trans hb2.symm)
            rw [if_pos ⟨hb2.symm, hb1.symm⟩, if_neg hne2, if_pos (by simp [hB])]
          · have hne1 : ¬(a = p.2 ∧ b = p.1) := by
              rintro ⟨h3, h4⟩
              exact hB (Prod.ext h4.symm h3.symm)
            have hne2 : ¬(a = p.1 ∧ b = p.2) := by
              rintro ⟨h3, h4⟩
              exact hA (Prod.ext h3.symm h4.symm)
            rw [if_neg hne1, if_neg hne2, if_neg (by simp [hA, hB])]
      omega

/-! ### Claim C5 (connection index semantics) -/

/-- Two singleton ranked clusters used by concrete counterexamples. -/
def csTwoClusters : List (List TGrocery) :=
  [[⟨"A", "item a", 5, "", ""⟩], [⟨"D", "item d", 4, "", ""⟩]]

/-- C5 counterexample: declaring the same qualifying vertical link twice
yields the entry `["D", "D"]` — duplicates accumulate instead of collapsing
to a single index entry, so the claimed set semantics fail. -/
theorem c5_counterexample_duplicate_links :
    getKV (buildVerticalConnectionMap csTwoClusters [("A", "D"), ("A", "D")]) "A" =
      some ["D", "D"] ∧
    getKV (buildVerticalConnectionMap csTwoClusters [("A", "D"), ("A", "D")]) "A" ≠
      some ["D"] := by
  constructor
  · rfl
  · decide

/-- C5 amended: the connection index records one bidirectional entry per
occurrence of a qualifying vertical pair (both endpoints resolve to cluster
indices and the indices differ; same-cluster and unknown-id pairs contribute
nothing) — list semantics, so repeated links accumulate rather than collapse:
the number of copies of `b` in `a`'s entry equals the number of qualifying
occurrences of the pair in either orientation. -/
theorem c5_amended_connection_index_counts_occurrences :
    ∀ (cs : List (List TGrocery)) (vp : List TProductPair) (a b : String),
      ((getKV (buildVerticalConnectionMap cs vp) a).getD []).count b =
        vp.countP (fun p => qualifiesB (productToClusterIdx cs) p &&
          (decide (p = (a, b)) || decide (p = (b, a)))) := by
  intro cs vp a b
  have h := connectionMap_count_aux (productToClusterIdx cs) a b vp []
  simpa [buildVerticalConnectionMap, getKV] using h

/-! ### Claim C2 (handling of unknown item ids) -/

/-- Both endpoints of a vertical pair resolve to a cluster index. -/
def bothKnownB (cs : List (List TGrocery)) (p : TProductPair) : Bool :=
  (getKV (productToClusterIdx cs) p.1).isSome && (getKV (productToClusterIdx cs) p.2).isSome

theorem foldl_filter_skip {α β : Type} (f : β → α → β) (q : α → Bool)
    (hskip : ∀ acc x, q x = false → f acc x = acc) :
    ∀ (l : List α) (acc : β), l.foldl f acc = (l.filter q).foldl f acc := by
  intro l
  induction l with
  | nil => intro acc; rfl
  | cons a t ih =>
    intro acc
    cases hq : q a with
    | false =>
      rw [List.foldl_cons, List.filter_cons, hq]
      simp only [Bool.false_eq_true, if_false]
      rw [hskip acc a hq]
      exact ih acc
    | true =>
      rw [List.foldl_cons, List.filter_cons, hq]
      simp only [if_true]
      rw [List.foldl_cons]
      exact ih (f acc a)

theorem vufStep_skip (p2c : List (String × Nat)) (uf : UnionFind) (p : TProductPair)
    (h : ((getKV p2c p.1).isSome && (getKV p2c p.2).isSome) = false) :
    vufStep p2c uf p = uf := by
  rw [vufStep]
  cases hg1 : getKV p2c p.1 with
  | none => rfl
  | some ia =>
    cases hg2 : getKV p2c p.2 with
    | none => rfl
    | some ib =>
      rw [hg1, hg2] at h
      simp at h

theorem connStep_skip (p2c : List (String × Nat)) (m : List (String × List String))
    (p : TProductPair)
    (h : ((getKV p2c p.1).isSome && (getKV p2c p.2).isSome) = false) :
    connStep p2c m p = m := by
  rw [connStep]
  cases hg1 : getKV p2c p.1 with
  | none => rfl
  | some ia =>
    cases hg2 : getKV p2c p.2 with
    | none => rfl
    | some ib =>
      rw [hg1, hg2] at h
      simp at h

theorem chainStep_skip (p2c : List (String × Nat)) (counts : List ((Nat × Nat) × Nat))
    (p : TProductPair)
    (h : ((getKV p2c p.1).isSome && (getKV p2c p.2).isSome) = false) :
    chainStep p2c counts p = counts := by
  rw [chainStep]
  cases hg1 : getKV p2c p.1 with
  | none => rfl
  | some ia =>
    cases hg2 : getKV p2c p.2 with
    | none => rfl
    | some ib =>
      rw [hg1, hg2] at h
      simp at h

theorem scan_foldlM_none (products : List (String × TGrocery)) :
    ∀ (l : List String) (st : String × Int), (∃ id ∈ l, getKV products id = none) →
      l.foldlM (fun (st : String × Int) id =>
        match getKV products id with
        | none => none
        | some p => some (if p.price > st.2 then (id, p.price) else st)) st = none := by
  intro l
  induction l with
  | nil =>
    rintro st ⟨id, hid, _⟩
    simp at hid
  | cons a t ih =>
    rintro st ⟨id, hid, hnone⟩
    rw [List.foldlM_cons]
    cases hga : getKV products a with
    | none => rfl
    | some pa =>
      have hidt : id ∈ t := by
        rcases List.mem_cons.mp hid with rfl | h
        · rw [hga] at hnone
          cases hnone
        · exact h
      simp only [hga]
      exact ih _ ⟨id, hidt, hnone⟩

theorem sortCluster_none_of_missing :
    ∀ (cluster : List String) (pairs : List TProductPair)
      (products : List (String × TGrocery)),
      (∃ id ∈ cluster, getKV products id = none) →
      sortCluster cluster pairs products = none := by
  intro cluster pairs products hex
  cases cluster with
  | nil =>
    obtain ⟨id, hid, _⟩ := hex
    simp at hid
  | cons c0 rest =>
    simp only [sortCluster]
    cases hg0 : getKV products c0 with
    | none => rfl
    | some g0 =>
      have hscan := scan_foldlM_none products (c0 :: rest) (c0, g0.price) hex
      show (match (c0 :: rest).foldlM (fun (st : String × Int) id =>
          match getKV products id with
          | none => none
          | some p => some (if p.price > st.2 then (id, p.price) else st)) (c0, g0.price) with
        | none => (none : Option (List TGrocery))
        | some st => some (((bfsAux (buildGraph (c0 :: rest) pairs) products
            (c0 :: rest).length [st.1] [st.1]).1).map
          (fun id => (getKV products id).getD default))) = none
      rw [hscan]

/-- C2 counterexample: with an empty item collection, the horizontal pair
`("A", "B")` references unknown ids only, yet `buildClusters` unions its
endpoints and emits the cluster `["A", "B"]` (the claim says no union
happens), and the intra-cluster ordering then fails on the missing item
lookup (`products.get(start)!.price` throws), so the pipeline does not
return complete output. -/
theorem c2_counterexample_unknown_horizontal_ids :
    buildClusters [("A", "B")] = [["A", "B"]] ∧
    sortCluster ["A", "B"] [("A", "B")] [] = none := by
  constructor
  · rfl
  · rfl

/-- C2 amended: only VERTICAL pairs with an unresolvable endpoint are
silently ignored — they contribute no union of cluster indices, no
connection-index entry and no chain weight (each builder equals itself run
on the pairs filtered to resolvable ones). Horizontal pairs are not checked
against the item collection: their endpoints are unioned and clustered, and
a cluster containing an id missing from the collection makes the
intra-cluster ordering fail (the `undefined.price` lookup), so such
degenerate input does propagate a failure instead of producing complete
output. -/
theorem c2_amended_vertical_ignored_horizontal_fails :
    (∀ (cs : List (List TGrocery)) (vp : List TProductPair) (uf : UnionFind),
      vp.foldl (vufStep (productToClusterIdx cs)) uf =
        (vp.filter (bothKnownB cs)).foldl (vufStep (productToClusterIdx cs)) uf) ∧
    (∀ (cs : List (List TGrocery)) (vp : List TProductPair),
      buildVerticalConnectionMap cs vp =
        buildVerticalConnectionMap cs (vp.filter (bothKnownB cs))) ∧
    (∀ (cs : List (List TGrocery)) (vp : List TProductPair),
      analyzeClusterChains (productToClusterIdx cs) vp =
        analyzeClusterChains (productToClusterIdx cs) (vp.filter (bothKnownB cs))) ∧
    (∀ (cluster : List String) (pairs : List TProductPair)
      (products : List (String × TGrocery)),
      (∃ id ∈ cluster, getKV products id = none) →
      sortCluster cluster pairs products = none) := by
  refine ⟨?_, ?_, ?_, sortCluster_none_of_missing⟩
  · intro cs vp uf
    exact foldl_filter_skip _ _ (fun acc p h => vufStep_skip _ acc p h) vp uf
  · intro cs vp
    rw [buildVerticalConnectionMap, buildVerticalConnectionMap]
    exact foldl_filter_skip _ _ (fun acc p h => connStep_skip _ acc p h) vp []
  · intro cs vp
    rw [analyzeClusterChains, analyzeClusterChains]
    exact foldl_filter_skip _ _ (fun acc p h => chainStep_skip _ acc p h) vp []

/-- Witness for the amended C2: a concrete cluster containing an id missing
from the item collection makes the ordering fail. -/
theorem c2_amended_witness : sortCluster ["A"] [] [] = none :=
  c2_amended_vertical_ignored_horizontal_fails.2.2.2 ["A"] [] []
    ⟨"A", by decide, rfl⟩

/-! ### Claim C9 (super-clusters partition the cluster indices) -/

theorem count_singleN (v x : Nat) : List.count x [v] = if x = v then 1 else 0 := by
  by_cases h : x = v
  · subst h
    simp
  · rw [if_neg h, List.count_eq_zero_of_not_mem]
    simp [h]

theorem count_pushEntryN {κ : Type} [DecidableEq κ] (m : List (κ × List Nat)) (k : κ)
    (v x : Nat) :
    (((pushEntryN m k v).map Prod.snd).flatten.count x) =
      ((m.map Prod.snd).flatten.count x) + (if x = v then 1 else 0) := by
  induction m with
  | nil =>
    simp only [pushEntryN, List.map_cons, List.map_nil, List.flatten_cons, List.flatten_nil,
      List.append_nil]
    rw [count_singleN]
    simp
  | cons hd t ih =>
    obtain ⟨k', w⟩ := hd
    by_cases hk : k = k'
    · simp only [pushEntryN, if_pos hk, List.map_cons, List.flatten_cons, List.count_append,
        count_singleN]
      omega
    · simp only [pushEntryN, if_neg hk, List.map_cons, List.flatten_cons, List.count_append, ih]
      omega

theorem bucketsFold_count :
    ∀ (l : List Nat) (st : List (String × List Nat) × UnionFind) (x : Nat),
      ((((l.foldl (fun (st : List (String × List Nat) × UnionFind) idx =>
          (pushEntryN st.1 ((st.2.find (natStr idx)).1) idx, (st.2.find (natStr idx)).2))
        st).1).map Prod.snd).flatten.count x) =
        ((st.1.map Prod.snd).flatten.count x) + l.count x := by
  intro l
  induction l with
  | nil => intro st x; simp
  | cons a t ih =>
    intro st x
    simp only [List.foldl_cons, List.count_cons]
    rw [ih]
    rw [count_pushEntryN]
    by_cases hx : x = a
    · simp [hx]
      omega
    · have : ¬ ((a == x) = true) := by
        simp only [beq_iff_eq]
        intro h
        exact hx h.symm
      simp [hx, this]

theorem verticalBuckets_flatten_perm (cs : List (List TGrocery)) (vp : List TProductPair)
    (p2c : List (String × Nat)) :
    List.Perm (verticalBuckets cs vp p2c).flatten (List.range cs.length) := by
  apply List.perm_iff_count.mpr
  intro x
  have h := bucketsFold_count (List.range cs.length)
    ([], vp.foldl (vufStep p2c) UnionFind.empty) x
  rw [verticalBuckets]
  simpa using h

theorem flatten_map_singleton (l : List Nat) : (l.map (fun i => [i])).flatten = l := by
  induction l with
  | nil => rfl
  | cons a t ih => simp [ih]

/-- Generic preservation of a predicate along `foldl`. -/
theorem foldl_preserve {α β : Type} (f : β → α → β) (Q : β → Prop)
    (hstep : ∀ acc x, Q acc → Q (f acc x)) :
    ∀ (l : List α) (init : β), Q init → Q (l.foldl f init) := by
  intro l
  induction l with
  | nil => intro init h; exact h
  | cons a t ih =>
    intro init h
    exact ih (f init a) (hstep init a h)

theorem mem_setKV {κ ν : Type} [DecidableEq κ] (l : List (κ × ν)) (k : κ) (v : ν) :
    ∀ e ∈ setKV l k v, e = (k, v) ∨ e ∈ l := by
  induction l with
  | nil =>
    intro e he
    rw [setKV] at he
    rcases List.mem_cons.mp he with rfl | h
    · exact Or.inl rfl
    · simp at h
  | cons hd t ih =>
    intro e he
    obtain ⟨k', v'⟩ := hd
    by_cases hk : k = k'
    · rw [setKV, if_pos hk] at he
      rcases List.mem_cons.mp he with rfl | h
      · exact Or.inl rfl
      · exact Or.inr (List.mem_cons_of_mem _ h)
    · rw [setKV, if_neg hk] at he
      rcases List.mem_cons.mp he with rfl | h
      · exact Or.inr (List.mem_cons_self _ _)
      · rcases ih e h with h' | h'
        · exact Or.inl h'
        · exact Or.inr (List.mem_cons_of_mem _ h')

/-- Every target stored in the per-group weight map is a group member. -/
theorem groupConnections_targets (counts : List ((Nat × Nat) × Nat)) (group : List Nat) :
    ∀ x l, getKV (groupConnections counts group) x = some l → ∀ e ∈ l, e.1 ∈ group := by
  have hsetInner : ∀ (m : List (Nat × List (Nat × Nat))) (k target : Nat) (w : Nat),
      target ∈ group →
      (∀ x l, getKV m x = some l → ∀ e ∈ l, e.1 ∈ group) →
      (∀ x l, getKV (setInner m k target w) x = some l → ∀ e ∈ l, e.1 ∈ group) := by
    intro m k target w htgt hm x l hl e he
    rw [setInner] at hl
    cases hin : getKV m k with
    | none =>
      rw [hin] at hl
      exact hm x l hl e he
    | some inner =>
      rw [hin] at hl
      by_cases hx : x = k
      · rw [hx, getKV_setKV_self] at hl
        injection hl with hl
        rw [← hl] at he
        rcases mem_setKV inner target (w : Nat) e he with rfl | h
        · exact htgt
        · exact hm k inner hin e h
      · rw [getKV_setKV_ne _ _ _ _ hx] at hl
        exact hm x l hl e he
  have hinner : ∀ (a : Nat) (l2 : List Nat), (∀ b ∈ l2, b ∈ group) → a ∈ group →
      ∀ m, (∀ x l, getKV m x = some l → ∀ e ∈ l, e.1 ∈ group) →
      (∀ x l, getKV (l2.foldl (fun m b =>
          if a ≠ b then
            if weightOf counts a b > 0 then
              setInner (setInner m a b (weightOf counts a b)) b a (weightOf counts a b)
            else m
          else m) m) x = some l → ∀ e ∈ l, e.1 ∈ group) := by
    intro a l2
    induction l2 with
    | nil => intro _ _ m hm; exact hm
    | cons b t ih =>
      intro hsub ha m hm
      simp only [List.foldl_cons]
      apply ih (fun c hc => hsub c (List.mem_cons_of_mem _ hc)) ha
      by_cases hab : a ≠ b
      · by_cases hw : weightOf counts a b > 0
        · simp only [if_pos hab, if_pos hw]
          exact hsetInner _ b a _ ha
            (hsetInner _ a b _ (hsub b (List.mem_cons_self _ _)) hm)
        · simp only [if_pos hab, if_neg hw]
          exact hm
      · simp only [if_neg hab]
        exact hm
  have hinit : ∀ (l2 : List Nat) (m : List (Nat × List (Nat × Nat))),
      (∀ x l, getKV m x = some l → ∀ e ∈ l, e.1 ∈ group) →
      (∀ x l, getKV (l2.foldl (fun m i => setKV m i []) m) x = some l →
        ∀ e ∈ l, e.1 ∈ group) := by
    intro l2
    induction l2 with
    | nil => intro m hm; exact hm
    | cons i t ih =>
      intro m hm
      simp only [List.foldl_cons]
      apply ih
      intro x l hl e he
      by_cases hx : x = i
      · rw [hx, getKV_setKV_self] at hl
        injection hl with hl
        rw [← hl] at he
        simp at he
      · rw [getKV_setKV_ne _ _ _ _ hx] at hl
        exact hm x l hl e he
  have houter : ∀ (l1 : List Nat), (∀ a ∈ l1, a ∈ group) →
      ∀ m, (∀ x l, getKV m x = some l → ∀ e ∈ l, e.1 ∈ group) →
      (∀ x l, getKV (l1.foldl (fun m a => group.foldl (fun m b =>
          if a ≠ b then
            if weightOf counts a b > 0 then
              setInner (setInner m a b (weightOf counts a b)) b a (weightOf counts a b)
            else m
          else m) m) m) x = some l → ∀ e ∈ l, e.1 ∈ group) := by
    intro l1
    induction l1 with
    | nil => intro _ m hm; exact hm
    | cons a t ih =>
      intro hsub m hm
      simp only [List.foldl_cons]
      apply ih (fun c hc => hsub c (List.mem_cons_of_mem _ hc))
      exact hinner a group (fun b hb => hb) (hsub a (List.mem_cons_self _ _)) m hm
  rw [groupConnections]
  apply houter group (fun a ha => ha)
  apply hinit group
  intro x l hl
  rw [getKV] at hl
  cases hl

/-- The greedy scan only proposes unvisited group members. -/
theorem pickNext_spec (cs : List (List TGrocery)) (counts : List ((Nat × Nat) × Nat))
    (group ordered visited : List Nat) :
    ∀ nc, (pickNext cs (groupConnections counts group) ordered visited).1 = some nc →
      nc ∉ visited ∧ nc ∈ group := by
  have htargets := groupConnections_targets counts group
  rw [pickNext]
  have hfold : ∀ (L : List (Nat × Nat)), (∀ e ∈ L, e.1 ∈ group) →
      ∀ (st : Option Nat × Nat), (∀ nc, st.1 = some nc → nc ∉ visited ∧ nc ∈ group) →
      ∀ nc, ((L.foldl (fun (st : Option Nat × Nat) tw =>
          if tw.1 ∉ visited then
            if tw.2 > st.2 then (some tw.1, tw.2)
            else if tw.2 = st.2 ∧ st.1 ≠ none then
              match st.1 with
              | some cur => if (firstId cs tw.1).data < (firstId cs cur).data then (some tw.1, st.2) else st
              | none => st
            else st
          else st) st)).1 = some nc → nc ∉ visited ∧ nc ∈ group := by
    intro L
    induction L with
    | nil => intro _ st hst nc h; exact hst nc h
    | cons tw t ih =>
      intro hentries st hst nc h
      have htw : tw.1 ∈ group := hentries tw (List.mem_cons_self _ _)
      have hent' : ∀ e ∈ t, e.1 ∈ group := fun e he => hentries e (List.mem_cons_of_mem _ he)
      rw [List.foldl_cons] at h
      refine ih hent' _ ?_ nc h
      intro nc' hnc'
      by_cases hv : tw.1 ∉ visited
      · rw [if_pos hv] at hnc'
        by_cases hgt : tw.2 > st.2
        · rw [if_pos hgt] at hnc'
          injection hnc' with hnc'
          rw [← hnc']
          exact ⟨hv, htw⟩
        · rw [if_neg hgt] at hnc'
          by_cases htie : tw.2 = st.2 ∧ st.1 ≠ none
          · rw [if_pos htie] at hnc'
            cases hst1 : st.1 with
            | none => exact absurd hst1 htie.2
            | some cur =>
              simp only [hst1] at hnc'
              by_cases hlt : (firstId cs tw.1).data < (firstId cs cur).data
              · rw [if_pos hlt] at hnc'
                injection hnc' with hnc'
                rw [← hnc']
                exact ⟨hv, htw⟩
              · rw [if_neg hlt] at hnc'
                exact hst nc' hnc'
          · rw [if_neg htie] at hnc'
            exact hst nc' hnc'
      · rw [if_neg hv] at hnc'
        exact hst nc' hnc'
  have hQstep : ∀ (st : Option Nat × Nat) (vc : Nat),
      (∀ nc, st.1 = some nc → nc ∉ visited ∧ nc ∈ group) →
      (∀ nc, ((((getKV (groupConnections counts group) vc).getD []).foldl
          (fun (st : Option Nat × Nat) tw =>
            if tw.1 ∉ visited then
              if tw.2 > st.2 then (some tw.1, tw.2)
              else if tw.2 = st.2 ∧ st.1 ≠ none then
                match st.1 with
                | some cur => if (firstId cs tw.1).data < (firstId cs cur).data then (some tw.1, st.2) else st
                | none => st
              else st
            else st) st)).1 = some nc → nc ∉ visited ∧ nc ∈ group) := by
    intro st vc hst
    apply hfold
    · cases hg : getKV (groupConnections counts group) vc with
      | none => simp
      | some l => simpa using htargets vc l hg
    · exact hst
  exact foldl_preserve _ (fun st => ∀ nc, st.1 = some nc → nc ∉ visited ∧ nc ∈ group)
    hQstep ordered ((none : Option Nat), 0) (fun nc h => by cases h)

theorem perm_of_subset_nodup_ge (group ordered : List Nat) (hg : group.Nodup)
    (ho : ordered.Nodup) (hsub : ∀ x ∈ ordered, x ∈ group)
    (hlen : group.length ≤ ordered.length) : List.Perm ordered group := by
  apply List.perm_of_nodup_nodup_toFinset_eq ho hg
  have hfsub : ordered.toFinset ⊆ group.toFinset := by
    intro x hx
    exact List.mem_toFinset.mpr (hsub x (List.mem_toFinset.mp hx))
  have hcard : group.toFinset.card ≤ ordered.toFinset.card := by
    rw [List.toFinset_card_of_nodup hg, List.toFinset_card_of_nodup ho]
    exact hlen
  exact (Finset.eq_of_subset_of_card_le hfsub hcard).symm ▸ rfl

theorem perm_append_filter (group ordered : List Nat) (hg : group.Nodup)
    (ho : ordered.Nodup) (hsub : ∀ x ∈ ordered, x ∈ group) :
    List.Perm (ordered ++ group.filter (fun c => decide (c ∉ ordered))) group := by
  apply List.perm_of_nodup_nodup_toFinset_eq
  · apply List.Nodup.append ho (hg.filter _)
    intro x hx hxf
    have := List.mem_filter.mp hxf
    simp only [decide_eq_true_eq] at this
    exact this.2 hx
  · exact hg
  · ext x
    simp only [List.mem_toFinset, List.mem_append, List.mem_filter, decide_eq_true_eq]
    constructor
    · rintro (h | ⟨h, _⟩)
      · exact hsub x h
      · exact h
    · intro h
      by_cases hx : x ∈ ordered
      · exact Or.inl hx
      · exact Or.inr ⟨h, hx⟩

theorem orderGroupGo_perm (cs : List (List TGrocery)) (counts : List ((Nat × Nat) × Nat))
    (group : List Nat) (hg : group.Nodup) :
    ∀ (fuel : Nat) (ordered : List Nat), ordered.Nodup → (∀ x ∈ ordered, x ∈ group) →
      group.length ≤ fuel + ordered.length →
      List.Perm (orderGroupGo cs (groupConnections counts group) group fuel ordered ordered)
        group := by
  intro fuel
  induction fuel with
  | zero =>
    intro ordered ho hsub hlen
    rw [orderGroupGo]
    exact perm_of_subset_nodup_ge group ordered hg ho hsub (by omega)
  | succ fuel ih =>
    intro ordered ho hsub hlen
    rw [orderGroupGo]
    by_cases hlt : ordered.length < group.length
    · rw [if_pos hlt]
      cases hpick : (pickNext cs (groupConnections counts group) ordered ordered).1 with
      | none =>
        have hperm := List.perm_insertionSort (fun a b => (firstId cs a).data ≤ (firstId cs b).data)
          (group.filter (fun c => decide (c ∉ ordered)))
        exact (List.Perm.append_left ordered hperm).trans
          (perm_append_filter group ordered hg ho hsub)
      | some nc =>
        obtain ⟨hnv, hng⟩ := pickNext_spec cs counts group ordered ordered nc hpick
        apply ih (ordered ++ [nc])
        · exact List.Nodup.append ho (List.nodup_singleton nc)
            (by intro x hx hx1; rw [List.mem_singleton.mp hx1] at hx; exact hnv hx)
        · intro x hx
          rcases List.mem_append.mp hx with h | h
          · exact hsub x h
          · rw [List.mem_singleton.mp h]
            exact hng
        · simp only [List.length_append, List.length_singleton]
          omega
    · rw [if_neg hlt]
      exact perm_of_subset_nodup_ge group ordered hg ho hsub (by omega)

theorem pickStart_mem (cs : List (List TGrocery)) (gconn : List (Nat × List (Nat × Nat)))
    (group : List Nat) (hne : group ≠ []) : pickStart cs gconn group ∈ group := by
  rw [pickStart]
  have hstep : ∀ (l : List Nat), (∀ x ∈ l, x ∈ group) → ∀ (st : Nat × Nat), st.2 ∈ group →
      (l.foldl (fun (st : Nat × Nat) ci =>
        if totalWeight gconn ci > st.1 then (totalWeight gconn ci, ci)
        else if totalWeight gconn ci = st.1 ∧ (firstId cs ci).data < (firstId cs st.2).data then (st.1, ci)
        else st) st).2 ∈ group := by
    intro l
    induction l with
    | nil => intro _ st h; exact h
    | cons a t ih =>
      intro hsub st hst
      rw [List.foldl_cons]
      apply ih (fun x hx => hsub x (List.mem_cons_of_mem _ hx))
      by_cases h1 : totalWeight gconn a > st.1
      · rw [if_pos h1]
        exact hsub a (List.mem_cons_self _ _)
      · rw [if_neg h1]
        by_cases h2 : totalWeight gconn a = st.1 ∧ (firstId cs a).data < (firstId cs st.2).data
        · rw [if_pos h2]
          exact hsub a (List.mem_cons_self _ _)
        · rw [if_neg h2]
          exact hst
  apply hstep group (fun x hx => hx)
  cases group with
  | nil => exact absurd rfl hne
  | cons a t => simp [List.headI]

theorem orderGroup_perm (cs : List (List TGrocery)) (counts : List ((Nat × Nat) × Nat))
    (group : List Nat) (hg : group.Nodup) :
    List.Perm (orderGroup cs counts group) group := by
  rw [orderGroup]
  by_cases hle : group.length ≤ 1
  · rw [if_pos hle]
  · rw [if_neg hle]
    have hne : group ≠ [] := by
      intro h
      rw [h] at hle
      simp at hle
    apply orderGroupGo_perm cs counts group hg group.length
      [pickStart cs (groupConnections counts group) group]
    · exact List.nodup_singleton _
    · intro x hx
      rw [List.mem_singleton.mp hx]
      exact pickStart_mem cs _ group hne
    · simp

theorem flatten_map_orderGroup_perm (cs : List (List TGrocery))
    (counts : List ((Nat × Nat) × Nat)) :
    ∀ (groups : List (List Nat)), (∀ g ∈ groups, g.Nodup) →
      List.Perm (groups.map (orderGroup cs counts)).flatten groups.flatten := by
  intro groups
  induction groups with
  | nil => intro _; rfl
  | cons g t ih =>
    intro hnd
    simp only [List.map_cons, List.flatten_cons]
    exact List.Perm.append (orderGroup_perm cs counts g (hnd g (List.mem_cons_self _ _)))
      (ih (fun g' hg' => hnd g' (List.mem_cons_of_mem _ hg')))

/-- C9: the super-cluster list partitions the full set of cluster indices
(the flattened output is a permutation of `0..n-1`, so each index appears in
exactly one super-cluster), and with no vertical pairs the output is exactly
one singleton super-cluster per ranked cluster, in ranked order. -/
theorem c9_superclusters_partition_indices :
    ∀ (cs : List (List TGrocery)) (vp : List TProductPair),
      List.Perm (buildVerticalClusters cs vp).flatten (List.range cs.length) ∧
      (vp = [] → buildVerticalClusters cs vp = (List.range cs.length).map (fun i => [i])) := by
  intro cs vp
  constructor
  · by_cases hvp : vp = []
    · rw [buildVerticalClusters, if_pos hvp, flatten_map_singleton]
    · rw [buildVerticalClusters, if_neg hvp]
      have hb := verticalBuckets_flatten_perm cs vp (productToClusterIdx cs)
      have hnd : (verticalBuckets cs vp (productToClusterIdx cs)).flatten.Nodup :=
        (hb.nodup_iff).mpr (List.nodup_range _)
      have hgnd : ∀ g ∈ verticalBuckets cs vp (productToClusterIdx cs), g.Nodup :=
        (List.nodup_flatten.mp hnd).1
      have h1 : List.Perm
          (((verticalBuckets cs vp (productToClusterIdx cs)).map
            (orderGroup cs (analyzeClusterChains (productToClusterIdx cs) vp))).insertionSort
              (fun a b => a.headI ≤ b.headI)).flatten
          ((verticalBuckets cs vp (productToClusterIdx cs)).map
            (orderGroup cs (analyzeClusterChains (productToClusterIdx cs) vp))).flatten :=
        List.Perm.flatten (List.perm_insertionSort _ _)
      exact h1.trans ((flatten_map_orderGroup_perm cs _ _ hgnd).trans hb)
  · intro h
    rw [buildVerticalClusters, if_pos h]

/-! ### Claims C1 and C4 (chain-strength reordering and super-cluster order) -/

theorem pairKey_comm (a b : Nat) : pairKey a b = pairKey b a := by
  rw [pairKey, pairKey]
  rcases Nat.lt_trichotomy a b with h | h | h
  · rw [if_pos h, if_neg (by omega)]
  · rw [h]
  · rw [if_neg (by omega), if_pos h]

theorem weightOf_comm (counts : List ((Nat × Nat) × Nat)) (a b : Nat) :
    weightOf counts a b = weightOf counts b a := by
  rw [weightOf, weightOf, pairKey_comm]

/-- Concrete three-cluster data realizing the C1 scenario: ranked clusters
X = 0 (items a…), Y = 1 (items d…), Z = 2 (items x…), vertical pairs a-d and
d-x, so weight(X,Y) = 1, weight(Y,Z) = 1, weight(X,Z) = 0. -/
def csChainEx : List (List TGrocery) :=
  [[⟨"a", "a", 30, "", ""⟩, ⟨"b", "b", 29, "", ""⟩],
   [⟨"d", "d", 20, "", ""⟩, ⟨"e", "e", 19, "", ""⟩],
   [⟨"x", "x", 10, "", ""⟩, ⟨"y", "y", 9, "", ""⟩]]

/-- C1 counterexample: with weight(X,Y) = weight(Y,Z) = 1 and
weight(X,Z) = 0 (X = 0, Y = 1, Z = 2), the reordering outputs `[1, 0, 2]` —
Y sits at the first position, an end of the order — and not one of the two
orders `[0, 1, 2]` (X-Y-Z) or `[2, 1, 0]` (Z-Y-X) the claim requires. -/
theorem c1_counterexample_hub_at_end :
    buildVerticalClusters csChainEx [("a", "d"), ("d", "x")] = [[1, 0, 2]] ∧
    buildVerticalClusters csChainEx [("a", "d"), ("d", "x")] ≠ [[0, 1, 2]] ∧
    buildVerticalClusters csChainEx [("a", "d"), ("d", "x")] ≠ [[2, 1, 0]] := by
  refine ⟨by decide, ?_, ?_⟩ <;> decide

/-- C1 amended: for clusters X, Y, Z forming one bucket with chain weights
weight(X,Y) = 1, weight(Y,Z) = 1, weight(X,Z) = 0, the chain-strength
reordering always places Y (the cluster with maximum total weight) FIRST:
the output is Y-X-Z or Y-Z-X, never an order with Y in the middle. -/
theorem c1_amended_hub_cluster_first :
    ∀ (cs : List (List TGrocery)) (counts : List ((Nat × Nat) × Nat)) (x y z : Nat)
      (g : List Nat),
      x ≠ y → y ≠ z → x ≠ z →
      weightOf counts x y = 1 → weightOf counts y z = 1 → weightOf counts x z = 0 →
      (g = [x, y, z] ∨ g = [x, z, y] ∨ g = [y, x, z] ∨ g = [y, z, x] ∨
        g = [z, x, y] ∨ g = [z, y, x]) →
      orderGroup cs counts g = [y, x, z] ∨ orderGroup cs counts g = [y, z, x] := by
  intro cs counts x y z g hxy hyz hxz hw1 hw2 hw3 hgcase
  have hyx : y ≠ x := Ne.symm hxy
  have hzy : z ≠ y := Ne.symm hyz
  have hzx : z ≠ x := Ne.symm hxz
  have hw1' : weightOf counts y x = 1 := by rw [weightOf_comm]; exact hw1
  have hw2' : weightOf counts z y = 1 := by rw [weightOf_comm]; exact hw2
  have hw3' : weightOf counts z x = 0 := by rw [weightOf_comm]; exact hw3
  rcases hgcase with rfl | rfl | rfl | rfl | rfl | rfl <;>
    rw [orderGroup, if_neg (by simp)] <;>
    by_cases h1 : (firstId cs z).data < (firstId cs x).data <;>
    by_cases h2 : (firstId cs x).data < (firstId cs z).data <;>
    first
      | (left
         simp [groupConnections, setInner, getKV, setKV, pickStart, totalWeight, orderGroupGo,
           pickNext, hxy, hyz, hxz, hyx, hzy, hzx, hw1, hw2, hw3, hw1', hw2', hw3', h1, h2]
         done)
      | (right
         simp [groupConnections, setInner, getKV, setKV, pickStart, totalWeight, orderGroupGo,
           pickNext, hxy, hyz, hxz, hyx, hzy, hzx, hw1, hw2, hw3, hw1', hw2', hw3', h1, h2]
         done)

/-- Witness for the amended C1 on concrete data (weights computed by
`analyzeClusterChains` from the pairs a-d and d-x). -/
theorem c1_amended_witness :
    orderGroup csChainEx
        (analyzeClusterChains (productToClusterIdx csChainEx) [("a", "d"), ("d", "x")])
        [0, 1, 2] = [1, 0, 2] ∨
      orderGroup csChainEx
        (analyzeClusterChains (productToClusterIdx csChainEx) [("a", "d"), ("d", "x")])
        [0, 1, 2] = [1, 2, 0] :=
  c1_amended_hub_cluster_first csChainEx
    (analyzeClusterChains (productToClusterIdx csChainEx) [("a", "d"), ("d", "x")])
    0 1 2 [0, 1, 2] (by decide) (by decide) (by decide) (by decide) (by decide) (by decide)
    (Or.inl rfl)

/-- Spec-side notion for C4: the lowest cluster index occurring in a
super-cluster ("the index of its lowest-index member cluster"). -/
def lowestIdx (g : List Nat) : Nat := g.foldr Nat.min g.headI

/-- Concrete data realizing the C4 scenario: three ranked singleton clusters
with first ids b1, c1, a1; one vertical pair joins clusters 0 and 2, and the
tie-break starts that bucket at cluster 2 (first id a1 < b1). -/
def csStackEx : List (List TGrocery) :=
  [[⟨"b1", "b1", 30, "", ""⟩], [⟨"c1", "c1", 20, "", ""⟩], [⟨"a1", "a1", 10, "", ""⟩]]

/-- C4 counterexample: the output is `[[1], [2, 0]]`. The super-cluster
`[2, 0]` has lowest-index member 0 but first element 2; the sort compares
first elements (`a[0] - b[0]`) after the chain-strength reordering, so the
list is NOT sorted by ascending lowest-index member (1 precedes 0). -/
theorem c4_counterexample_sorted_by_head_not_lowest :
    buildVerticalClusters csStackEx [("b1", "a1")] = [[1], [2, 0]] ∧
    ¬ List.Pairwise (fun a b => lowestIdx a ≤ lowestIdx b)
        (buildVerticalClusters csStackEx [("b1", "a1")]) := by
  constructor
  · decide
  · decide

/-- C4 amended: the super-cluster list is sorted by the ascending index of
each super-cluster's FIRST member (the bucket's start cluster after the
chain-strength reordering), not by its lowest-index member. -/
theorem c4_amended_sorted_by_first_member :
    ∀ (cs : List (List TGrocery)) (vp : List TProductPair),
      List.Pairwise (fun (a b : List Nat) => a.headI ≤ b.headI)
        (buildVerticalClusters cs vp) := by
  intro cs vp
  by_cases hvp : vp = []
  · rw [buildVerticalClusters, if_pos hvp]
    rw [List.pairwise_map]
    exact (List.pairwise_lt_range cs.length).imp (fun hij => by
      simp only [List.headI]
      omega)
  · rw [buildVerticalClusters, if_neg hvp]
    haveI : IsTotal (List Nat) (fun a b => a.headI ≤ b.headI) :=
      ⟨fun a b => Nat.le_total _ _⟩
    haveI : IsTrans (List Nat) (fun a b => a.headI ≤ b.headI) :=
      ⟨fun a b c hab hbc => le_trans hab hbc⟩
    exact List.sorted_insertionSort _ _

/-- Witness for the amended C4 at the concrete counterexample data. -/
theorem c4_amended_witness :
    List.Pairwise (fun (a b : List Nat) => a.headI ≤ b.headI)
      (buildVerticalClusters csStackEx [("b1", "a1")]) :=
  c4_amended_sorted_by_first_member csStackEx [("b1", "a1")]

/-- Concrete product collection for exercising the ranking pipeline. -/
def prodsRankEx : List (String × TGrocery) :=
  [("A", ⟨"A", "A", 5, "", ""⟩), ("B", ⟨"B", "B", 3, "", ""⟩),
   ("C", ⟨"C", "C", 9, "", ""⟩), ("D", ⟨"D", "D", 1, "", ""⟩)]

/-- Witness for C8 at a concrete input: two clusters with maximum prices 5
and 9 are ranked 9-first, and the equal-price fibers agree with the
pre-ranking order. -/
theorem c8_witness :
    preRankedClusters [("A", "B"), ("C", "D")] prodsRankEx =
      some [[⟨"A", "A", 5, "", ""⟩, ⟨"B", "B", 3, "", ""⟩],
            [⟨"C", "C", 9, "", ""⟩, ⟨"D", "D", 1, "", ""⟩]] ∧
    sortedHorizontalClusters [("A", "B"), ("C", "D")] prodsRankEx =
      some [[⟨"C", "C", 9, "", ""⟩, ⟨"D", "D", 1, "", ""⟩],
            [⟨"A", "A", 5, "", ""⟩, ⟨"B", "B", 3, "", ""⟩]] ∧
    (List.Pairwise rankedLE
        [[⟨"C", "C", 9, "", ""⟩, ⟨"D", "D", 1, "", ""⟩],
         [⟨"A", "A", 5, "", ""⟩, ⟨"B", "B", 3, "", ""⟩]] ∧
      ∀ v : Int,
        List.filter (fun c => decide (clusterMaxPrice c = v))
            [[⟨"C", "C", 9, "", ""⟩, ⟨"D", "D", 1, "", ""⟩],
             [⟨"A", "A", 5, "", ""⟩, ⟨"B", "B", 3, "", ""⟩]] =
          List.filter (fun c => decide (clusterMaxPrice c = v))
            [[⟨"A", "A", 5, "", ""⟩, ⟨"B", "B", 3, "", ""⟩],
             [⟨"C", "C", 9, "", ""⟩, ⟨"D", "D", 1, "", ""⟩]]) :=
  ⟨by decide, by decide,
    c8_cluster_ranking_sorted_stable [("A", "B"), ("C", "D")] prodsRankEx
      [[⟨"A", "A", 5, "", ""⟩, ⟨"B", "B", 3, "", ""⟩],
       [⟨"C", "C", 9, "", ""⟩, ⟨"D", "D", 1, "", ""⟩]]
      [[⟨"C", "C", 9, "", ""⟩, ⟨"D", "D", 1, "", ""⟩],
       [⟨"A", "A", 5, "", ""⟩, ⟨"B", "B", 3, "", ""⟩]]
      (by decide) (by decide)⟩

/-- Witness for C9 at a concrete input with no vertical pairs: three ranked
clusters yield three singleton super-clusters in order. -/
theorem c9_witness :
    List.Perm (buildVerticalClusters csChainEx []).flatten (List.range 3) ∧
    (([] : List TProductPair) = [] →
      buildVerticalClusters csChainEx [] = (List.range 3).map (fun i => [i])) :=
  c9_superclusters_partition_indices csChainEx []

/-! ### Claim C3: horizontal offsets (`clusterOffsets`)

```ts
const CARD_WIDTH = 200; const CARD_GAP = 20; const CONNECTOR_WIDTH = 40;
verticalClusters.forEach(verticalCluster => {
  if (verticalCluster.length === 0) return;
  offsets.set(verticalCluster[0], 0);
  for (let i = 1; i < verticalCluster.length; i++) {
    ... scan prev cluster items in order, first connection-map entry whose
        target resolves into the current cluster gives (sourceIdx, targetIdx);
    if found: offsets.set(cur, prevOffset + sourceIdx*K - targetIdx*K);
    else:     offsets.set(cur, offsets.get(prev) || 0);
  }
});
```
-/

def CARD_WIDTH : Int := 200

def CARD_GAP : Int := 20

def CONNECTOR_WIDTH : Int := 40

/-- `productIdToClusterIndex`: item id ↦ (clusterIdx, positionInCluster). -/
def p2pos (shc : List (List TGrocery)) : List (String × (Nat × Nat)) :=
  shc.enum.foldl (fun m ci =>
    ci.2.enum.foldl (fun m pi => setKV m pi.2.id (ci.1, pi.1)) m) []

/-- Scan the previous cluster's items in order; the first item with a
connection-map entry whose target resolves into cluster `cur` yields
`(sourceProductIdx, targetProductIdx)`. -/
def findAnchorIn (vcm : List (String × List String)) (p2p : List (String × (Nat × Nat)))
    (cur : Nat) (prevCluster : List TGrocery) : Option (Nat × Nat) :=
  prevCluster.enum.findSome? (fun jp =>
    ((getKV vcm jp.2.id).getD []).findSome? (fun cid =>
      match getKV p2p cid with
      | some ti => if ti.1 = cur then some (jp.1, ti.2) else none
      | none => none))

/-- One iteration of the offset loop (`offsets.get(prev) || 0` is `getD 0`:
`||` only replaces `undefined`, `0` and `NaN`, all of which map to `0`). -/
def groupOffsetsStep (shc : List (List TGrocery)) (vcm : List (String × List String))
    (offsets : List (Nat × Int)) (prev cur : Nat) : List (Nat × Int) :=
  match findAnchorIn vcm (p2pos shc) cur (shc.getD prev []) with
  | some st =>
    setKV offsets cur (((getKV offsets prev).getD 0)
      + (st.1 : Int) * (CARD_WIDTH + CARD_GAP + CONNECTOR_WIDTH)
      - (st.2 : Int) * (CARD_WIDTH + CARD_GAP + CONNECTOR_WIDTH))
  | none => setKV offsets cur ((getKV offsets prev).getD 0)

def processGroupGo (shc : List (List TGrocery)) (vcm : List (String × List String)) :
    List (Nat × Int) → Nat → List Nat → List (Nat × Int)
  | offsets, _, [] => offsets
  | offsets, prev, cur :: rest =>
    processGroupGo shc vcm (groupOffsetsStep shc vcm offsets prev cur) cur rest

/-- Process one super-cluster: first member ↦ 0, then the offset loop. -/
def groupStep (shc : List (List TGrocery)) (vcm : List (String × List String))
    (offsets : List (Nat × Int)) (g : List Nat) : List (Nat × Int) :=
  match g with
  | [] => offsets
  | g0 :: rest => processGroupGo shc vcm (setKV offsets g0 0) g0 rest

def clusterOffsets (shc : List (List TGrocery)) (vcm : List (String × List String))
    (vcs : List (List Nat)) : List (Nat × Int) :=
  vcs.foldl (groupStep shc vcm) []

theorem groupOffsetsStep_getKV_ne (shc : List (List TGrocery))
    (vcm : List (String × List String)) (offsets : List (Nat × Int)) (prev cur x : Nat)
    (hx : x ≠ cur) :
    getKV (groupOffsetsStep shc vcm offsets prev cur) x = getKV offsets x := by
  rw [groupOffsetsStep]
  cases findAnchorIn vcm (p2pos shc) cur (shc.getD prev []) with
  | none => exact getKV_setKV_ne _ _ _ _ hx
  | some st => exact getKV_setKV_ne _ _ _ _ hx

theorem groupOffsetsStep_getKV_self (shc : List (List TGrocery))
    (vcm : List (String × List String)) (offsets : List (Nat × Int)) (prev cur : Nat) :
    getKV (groupOffsetsStep shc vcm offsets prev cur) cur = some
      (match findAnchorIn vcm (p2pos shc) cur (shc.getD prev []) with
       | some st => ((getKV offsets prev).getD 0)
         + (st.1 : Int) * (CARD_WIDTH + CARD_GAP + CONNECTOR_WIDTH)
         - (st.2 : Int) * (CARD_WIDTH + CARD_GAP + CONNECTOR_WIDTH)
       | none => (getKV offsets prev).getD 0) := by
  rw [groupOffsetsStep]
  cases findAnchorIn vcm (p2pos shc) cur (shc.getD prev []) with
  | none => exact getKV_setKV_self _ _ _
  | some st => exact getKV_setKV_self _ _ _

theorem processGroupGo_getKV_not_mem (shc : List (List TGrocery))
    (vcm : List (String × List String)) :
    ∀ (rest : List Nat) (offsets : List (Nat × Int)) (prev x : Nat), x ∉ rest →
      getKV (processGroupGo shc vcm offsets prev rest) x = getKV offsets x := by
  intro rest
  induction rest with
  | nil => intro offsets prev x _; rfl
  | cons c t ih =>
    intro offsets prev x hx
    rw [processGroupGo]
    rw [ih _ c x (fun h => hx (List.mem_cons_of_mem _ h))]
    exact groupOffsetsStep_getKV_ne shc vcm offsets prev c x
      (fun h => hx (h ▸ List.mem_cons_self _ _))

theorem processGroupGo_spec (shc : List (List TGrocery))
    (vcm : List (String × List String)) :
    ∀ (rest : List Nat) (offsets : List (Nat × Int)) (prev : Nat),
      (prev :: rest).Nodup →
      ∀ pc ∈ (prev :: rest).zip rest,
        getKV (processGroupGo shc vcm offsets prev rest) pc.2 = some
          (match findAnchorIn vcm (p2pos shc) pc.2 (shc.getD pc.1 []) with
           | some st => ((getKV (processGroupGo shc vcm offsets prev rest) pc.1).getD 0)
             + (st.1 : Int) * (CARD_WIDTH + CARD_GAP + CONNECTOR_WIDTH)
             - (st.2 : Int) * (CARD_WIDTH + CARD_GAP + CONNECTOR_WIDTH)
           | none => (getKV (processGroupGo shc vcm offsets prev rest) pc.1).getD 0) := by
  intro rest
  induction rest with
  | nil => intro offsets prev _ pc hpc; simp at hpc
  | cons c t ih =>
    intro offsets prev hnd pc hpc
    have hnd' : (c :: t).Nodup := hnd.of_cons
    have hct : c ∉ t := (List.nodup_cons.mp hnd').1
    have hprev : prev ∉ c :: t := (List.nodup_cons.mp hnd).1
    have hpt : prev ∉ t := fun h => hprev (List.mem_cons_of_mem _ h)
    have hpc' : prev ≠ c := fun h => hprev (h ▸ List.mem_cons_self _ _)
    rw [processGroupGo]
    rcases List.mem_cons.mp hpc with hpc1 | hpc2
    · rw [hpc1]
      have h2 : getKV (processGroupGo shc vcm (groupOffsetsStep shc vcm offsets prev c) c t) c
          = getKV (groupOffsetsStep shc vcm offsets prev c) c :=
        processGroupGo_getKV_not_mem shc vcm t _ c c hct
      have h1 : getKV (processGroupGo shc vcm (groupOffsetsStep shc vcm offsets prev c) c t) prev
          = getKV offsets prev := by
        rw [processGroupGo_getKV_not_mem shc vcm t _ c prev hpt]
        exact groupOffsetsStep_getKV_ne shc vcm offsets prev c prev hpc'
      rw [h2, h1]
      exact groupOffsetsStep_getKV_self shc vcm offsets prev c
    · exact ih (groupOffsetsStep shc vcm offsets prev c) c hnd' pc hpc2

theorem groupStep_getKV_not_mem (shc : List (List TGrocery))
    (vcm : List (String × List String)) (offsets : List (Nat × Int)) (g : List Nat)
    (x : Nat) (hx : x ∉ g) :
    getKV (groupStep shc vcm offsets g) x = getKV offsets x := by
  cases g with
  | nil => rfl
  | cons g0 rest =>
    rw [groupStep]
    rw [processGroupGo_getKV_not_mem shc vcm rest _ g0 x
      (fun h => hx (List.mem_cons_of_mem _ h))]
    exact getKV_setKV_ne _ _ _ _ (fun h => hx (h ▸ List.mem_cons_self _ _))

theorem foldl_groupStep_getKV_not_mem (shc : List (List TGrocery))
    (vcm : List (String × List String)) :
    ∀ (vcs : List (List Nat)) (m : List (Nat × Int)) (x : Nat),
      (∀ g ∈ vcs, x ∉ g) →
      getKV (vcs.foldl (groupStep shc vcm) m) x = getKV m x := by
  intro vcs
  induction vcs with
  | nil => intro m x _; rfl
  | cons h t ih =>
    intro m x hx
    rw [List.foldl_cons]
    rw [ih _ x (fun g hg => hx g (List.mem_cons_of_mem _ hg))]
    exact groupStep_getKV_not_mem shc vcm m h x (hx h (List.mem_cons_self _ _))

theorem clusterOffsets_foldl_spec (shc : List (List TGrocery))
    (vcm : List (String × List String)) :
    ∀ (vcs : List (List Nat)) (m : List (Nat × Int)),
      (vcs.flatten).Nodup →
      ∀ g ∈ vcs, ∀ (g0 : Nat) (rest : List Nat), g = g0 :: rest →
        getKV (vcs.foldl (groupStep shc vcm) m) g0 = some 0 ∧
        ∀ pc ∈ g.zip g.tail,
          getKV (vcs.foldl (groupStep shc vcm) m) pc.2 = some
            (match findAnchorIn vcm (p2pos shc) pc.2 (shc.getD pc.1 []) with
             | some st =>
               ((getKV (vcs.foldl (groupStep shc vcm) m) pc.1).getD 0)
                 + (st.1 : Int) * (CARD_WIDTH + CARD_GAP + CONNECTOR_WIDTH)
                 - (st.2 : Int) * (CARD_WIDTH + CARD_GAP + CONNECTOR_WIDTH)
             | none => (getKV (vcs.foldl (groupStep shc vcm) m) pc.1).getD 0) := by
  intro vcs
  induction vcs with
  | nil => intro m _ g hg; simp at hg
  | cons h t ih =>
    intro m hnd g hg g0 rest hgr
    simp only [List.flatten_cons] at hnd
    obtain ⟨hh, ht, hdisj⟩ := List.nodup_append.mp hnd
    rw [List.foldl_cons]
    rcases List.mem_cons.mp hg with hgh | hgt
    · have hpres : ∀ x ∈ g, getKV (t.foldl (groupStep shc vcm) (groupStep shc vcm m h)) x
          = getKV (groupStep shc vcm m h) x := by
        intro x hx
        apply foldl_groupStep_getKV_not_mem shc vcm t _ x
        intro g' hg' hxg'
        exact hdisj (hgh ▸ hx) (List.mem_flatten.mpr ⟨g', hg', hxg'⟩)
      have hgnd : (g0 :: rest).Nodup := by
        rw [← hgr, hgh]
        exact hh
      have hg0rest : g0 ∉ rest := (List.nodup_cons.mp hgnd).1
      have hm2 : groupStep shc vcm m h
          = processGroupGo shc vcm (setKV m g0 0) g0 rest := by
        rw [← hgh, hgr, groupStep]
      constructor
      · rw [hpres g0 (by rw [hgr]; exact List.mem_cons_self _ _)]
        rw [hm2, processGroupGo_getKV_not_mem shc vcm rest _ g0 g0 hg0rest]
        exact getKV_setKV_self _ _ _
      · intro pc hpc
        have hmem := List.of_mem_zip hpc
        have hpc1 : pc.1 ∈ g := hmem.1
        have hpc2 : pc.2 ∈ g := by
          have := hmem.2
          rw [hgr] at this ⊢
          exact List.mem_cons_of_mem _ this
        have hspec := processGroupGo_spec shc vcm rest (setKV m g0 0) g0 hgnd pc
          (by rw [hgr] at hpc; exact hpc)
        rw [hpres pc.2 hpc2, hpres pc.1 hpc1, hm2]
        exact hspec
    · have hdisj' : ∀ g' ∈ t, ∀ x ∈ g', x ∈ t.flatten := by
        intro g' hg' x hx
        exact List.mem_flatten.mpr ⟨g', hg', hx⟩
      exact ih (groupStep shc vcm m h) ht g hgt g0 rest hgr

/-- C3: in every super-cluster the first cluster's horizontal offset is 0,
and every subsequent cluster C with predecessor P gets
`offset(P) + sourceIdx*(width+gap+connector) - targetIdx*(width+gap+connector)`
when scanning P's items in order finds a first anchor into C (source position
`sourceIdx` in P, target position `targetIdx` in C), and `offset(P)` when no
anchor exists. -/
theorem c3_offsets_first_zero_then_anchor_formula :
    ∀ (shc : List (List TGrocery)) (vcm : List (String × List String))
      (vcs : List (List Nat)) (g : List Nat) (g0 : Nat) (rest : List Nat),
      (vcs.flatten).Nodup → g ∈ vcs → g = g0 :: rest →
      getKV (clusterOffsets shc vcm vcs) g0 = some 0 ∧
      ∀ pc ∈ g.zip g.tail,
        getKV (clusterOffsets shc vcm vcs) pc.2 = some
          (match findAnchorIn vcm (p2pos shc) pc.2 (shc.getD pc.1 []) with
           | some st =>
             ((getKV (clusterOffsets shc vcm vcs) pc.1).getD 0)
               + (st.1 : Int) * (CARD_WIDTH + CARD_GAP + CONNECTOR_WIDTH)
               - (st.2 : Int) * (CARD_WIDTH + CARD_GAP + CONNECTOR_WIDTH)
           | none => (getKV (clusterOffsets shc vcm vcs) pc.1).getD 0) := by
  intro shc vcm vcs g g0 rest hnd hg hgr
  exact clusterOffsets_foldl_spec shc vcm vcs [] hnd g hg g0 rest hgr

/-- Concrete layout data: clusters [[A,B],[C],[D]], vertical connection
B-C, super-clusters [[0,1],[2]]. -/
def shcOffEx : List (List TGrocery) :=
  [[⟨"A", "A", 4, "", ""⟩, ⟨"B", "B", 3, "", ""⟩],
   [⟨"C", "C", 2, "", ""⟩], [⟨"D", "D", 1, "", ""⟩]]

/-- Witness for C3: in super-cluster [0,1], cluster 0 gets offset 0 and
cluster 1 gets the anchor formula (source position 1, target position 0,
offset 260). -/
theorem c3_witness :
    getKV (clusterOffsets shcOffEx [("B", ["C"]), ("C", ["B"])] [[0, 1], [2]]) 0 = some 0 ∧
    ∀ pc ∈ ([0, 1] : List Nat).zip ([0, 1] : List Nat).tail,
      getKV (clusterOffsets shcOffEx [("B", ["C"]), ("C", ["B"])] [[0, 1], [2]]) pc.2 = some
        (match findAnchorIn [("B", ["C"]), ("C", ["B"])] (p2pos shcOffEx) pc.2
            (shcOffEx.getD pc.1 []) with
         | some st =>
           ((getKV (clusterOffsets shcOffEx [("B", ["C"]), ("C", ["B"])] [[0, 1], [2]])
               pc.1).getD 0)
             + (st.1 : Int) * (CARD_WIDTH + CARD_GAP + CONNECTOR_WIDTH)
             - (st.2 : Int) * (CARD_WIDTH + CARD_GAP + CONNECTOR_WIDTH)
         | none =>
           (getKV (clusterOffsets shcOffEx [("B", ["C"]), ("C", ["B"])] [[0, 1], [2]])
               pc.1).getD 0) :=
  c3_offsets_first_zero_then_anchor_formula shcOffEx [("B", ["C"]), ("C", ["B"])]
    [[0, 1], [2]] [0, 1] 0 [1] (by decide) (by decide) rfl

/-! ### Claim C7: intra-cluster BFS ordering

Connectivity generated by the pair list, and its coincidence with
root-equality in the disjoint-set store built by `buildClusters`. -/

/-- One undirected step along a pair. -/
def PairStep (pairs : List TProductPair) (a b : String) : Prop :=
  ∃ p ∈ pairs, (p.1 = a ∧ p.2 = b) ∨ (p.1 = b ∧ p.2 = a)

/-- Connectivity: the reflexive-transitive closure of `PairStep`. -/
def Connected (pairs : List TProductPair) : String → String → Prop :=
  Relation.ReflTransGen (PairStep pairs)

/-- The store after unioning every pair (the first phase of `buildClusters`). -/
def ufOfPairs (pairs : List TProductPair) : UnionFind :=
  pairs.foldl (fun uf p => uf.union p.1 p.2) UnionFind.empty

theorem pairStep_symm (pairs : List TProductPair) {a b : String}
    (h : PairStep pairs a b) : PairStep pairs b a := by
  obtain ⟨p, hp, hor⟩ := h
  exact ⟨p, hp, hor.symm⟩

theorem connected_symm (pairs : List TProductPair) {a b : String}
    (h : Connected pairs a b) : Connected pairs b a :=
  Relation.ReflTransGen.symmetric (fun _ _ hs => pairStep_symm pairs hs) h

theorem connected_mono (l : List TProductPair) (p : TProductPair) {a b : String}
    (h : Connected l a b) : Connected (l ++ [p]) a b := by
  apply Relation.ReflTransGen.mono _ h
  intro x y hxy
  obtain ⟨q, hq, hor⟩ := hxy
  exact ⟨q, List.mem_append_left _ hq, hor⟩

theorem connected_nil (a b : String) : Connected [] a b ↔ a = b := by
  constructor
  · intro h
    induction h with
    | refl => rfl
    | tail _ hstep ih =>
      obtain ⟨p, hp, _⟩ := hstep
      simp at hp
  · intro h
    rw [h]
    exact Relation.ReflTransGen.refl

theorem pairStep_append_single (l : List TProductPair) (p : TProductPair) (a b : String) :
    PairStep (l ++ [p]) a b ↔
      PairStep l a b ∨ (p.1 = a ∧ p.2 = b) ∨ (p.1 = b ∧ p.2 = a) := by
  constructor
  · rintro ⟨q, hq, hor⟩
    rcases List.mem_append.mp hq with hql | hqp
    · exact Or.inl ⟨q, hql, hor⟩
    · rw [List.mem_singleton.mp hqp] at hor
      exact Or.inr hor
  · rintro (⟨q, hq, hor⟩ | hor | hor)
    · exact ⟨q, List.mem_append_left _ hq, hor⟩
    · exact ⟨p, List.mem_append_right _ (List.mem_singleton_self p), Or.inl hor⟩
    · exact ⟨p, List.mem_append_right _ (List.mem_singleton_self p), Or.inr hor⟩

theorem ufOfPairs_spec (pairs : List TProductPair) :
    UFInv (ufOfPairs pairs) ∧
    ∀ a b, rootOf (ufOfPairs pairs) a = rootOf (ufOfPairs pairs) b ↔ Connected pairs a b := by
  induction pairs using List.reverseRecOn with
  | nil =>
    refine ⟨UFInv_empty, ?_⟩
    intro a b
    have hra : rootOf UnionFind.empty a = a := rfl
    have hrb : rootOf UnionFind.empty b = b := rfl
    rw [show ufOfPairs [] = UnionFind.empty from rfl, hra, hrb, connected_nil]
  | append_singleton l p ih =>
    obtain ⟨hInv, hiff⟩ := ih
    have hstep : ufOfPairs (l ++ [p]) = (ufOfPairs l).union p.1 p.2 := by
      rw [ufOfPairs, ufOfPairs, List.foldl_append, List.foldl_cons, List.foldl_nil]
    obtain ⟨hInv', hroot'⟩ := union_spec (ufOfPairs l) p.1 p.2 hInv
    rw [hstep]
    refine ⟨hInv', ?_⟩
    intro a b
    rw [hroot' a, hroot' b]
    constructor
    · intro h
      by_cases ha : rootOf (ufOfPairs l) a = rootOf (ufOfPairs l) p.1 <;>
        by_cases hb : rootOf (ufOfPairs l) b = rootOf (ufOfPairs l) p.1
      · -- both in the class of p.1: connected through p.1 already in l
        have hab : Connected l a b := (hiff a p.1).mp ha |>.trans
          (connected_symm l ((hiff b p.1).mp hb))
        exact connected_mono l p hab
      · rw [if_pos ha, if_neg hb] at h
        -- a ~ p.1 and b ~ p.2: connect through the new pair
        have h1 : Connected l a p.1 := (hiff a p.1).mp ha
        have h2 : Connected l p.2 b := (hiff p.2 b).mp h
        have hmid : Connected (l ++ [p]) p.1 p.2 :=
          Relation.ReflTransGen.single
            ((pairStep_append_single l p p.1 p.2).mpr (Or.inr (Or.inl ⟨rfl, rfl⟩)))
        exact ((connected_mono l p h1).trans hmid).trans (connected_mono l p h2)
      · rw [if_neg ha, if_pos hb] at h
        have h1 : Connected l a p.2 := (hiff a p.2).mp h
        have h2 : Connected l p.1 b := connected_symm l ((hiff b p.1).mp hb)
        have hmid : Connected (l ++ [p]) p.2 p.1 :=
          Relation.ReflTransGen.single
            ((pairStep_append_single l p p.2 p.1).mpr (Or.inr (Or.inr ⟨rfl, rfl⟩)))
        exact ((connected_mono l p h1).trans hmid).trans (connected_mono l p h2)
      · rw [if_neg ha, if_neg hb] at h
        exact connected_mono l p ((hiff a b).mp h)
    · intro h
      induction h with
      | refl => rfl
      | @tail c d hconn hlast ihc =>
        rw [ihc]
        rcases (pairStep_append_single l p c d).mp hlast with hl | ⟨h1, h2⟩ | ⟨h1, h2⟩
        · have hcd : rootOf (ufOfPairs l) c = rootOf (ufOfPairs l) d :=
            (hiff c d).mpr (Relation.ReflTransGen.single hl)
          rw [hcd]
        · -- c = p.1, d = p.2
          rw [← h1, ← h2]
          by_cases hc : rootOf (ufOfPairs l) p.1 = rootOf (ufOfPairs l) p.1
          · rw [if_pos hc]
            by_cases hd : rootOf (ufOfPairs l) p.2 = rootOf (ufOfPairs l) p.1
            · rw [if_pos hd, hd]
            · rw [if_neg hd]
          · exact absurd rfl hc
        · -- c = p.2, d = p.1
          rw [← h1, ← h2]
          rw [if_pos (show rootOf (ufOfPairs l) p.1 = rootOf (ufOfPairs l) p.1 from rfl)]
          by_cases hd : rootOf (ufOfPairs l) p.2 = rootOf (ufOfPairs l) p.1
          · rw [if_pos hd]
          · rw [if_neg hd]

theorem keys_pushEntry (m : List (String × List String)) (k v : String) :
    (pushEntry m k v).map Prod.fst =
      if k ∈ m.map Prod.fst then m.map Prod.fst else m.map Prod.fst ++ [k] := by
  induction m with
  | nil => simp [pushEntry]
  | cons hd t ih =>
    obtain ⟨k', w⟩ := hd
    by_cases hk : k = k'
    · subst hk
      simp [pushEntry]
    · simp only [pushEntry, if_neg hk, List.map_cons, List.mem_cons]
      rw [ih]
      by_cases hmem : k ∈ t.map Prod.fst
      · rw [if_pos hmem, if_pos (Or.inr hmem)]
      · rw [if_neg hmem, if_neg (by rintro (h | h); exact hk h; exact hmem h)]
        simp

theorem pushEntry_keys_nodup (m : List (String × List String)) (k v : String)
    (h : (m.map Prod.fst).Nodup) : ((pushEntry m k v).map Prod.fst).Nodup := by
  rw [keys_pushEntry]
  by_cases hmem : k ∈ m.map Prod.fst
  · rw [if_pos hmem]; exact h
  · rw [if_neg hmem]
    exact List.Nodup.append h (List.nodup_singleton k)
      (fun x hx hx1 => hmem ((List.mem_singleton.mp hx1) ▸ hx))

theorem pushEntry_pred {P : String → String → Prop} :
    ∀ (m : List (String × List String)) (k v : String),
      (∀ kb ∈ m, ∀ x ∈ kb.2, P kb.1 x) → P k v →
      ∀ kb ∈ pushEntry m k v, ∀ x ∈ kb.2, P kb.1 x := by
  intro m
  induction m with
  | nil =>
    intro k v _ hkv kb hkb x hx
    rw [List.mem_singleton.mp hkb] at hx ⊢
    rw [List.mem_singleton.mp hx]
    exact hkv
  | cons hd t ih =>
    intro k v hm hkv kb hkb x hx
    obtain ⟨k', w⟩ := hd
    by_cases hk : k = k'
    · subst hk
      rw [pushEntry, if_pos rfl] at hkb
      rcases List.mem_cons.mp hkb with h | h
      · subst h
        rcases List.mem_append.mp hx with h | h
        · exact hm (k, w) (List.mem_cons_self _ _) x h
        · rw [List.mem_singleton.mp h]
          exact hkv
      · exact hm kb (List.mem_cons_of_mem _ h) x hx
    · rw [pushEntry, if_neg hk] at hkb
      rcases List.mem_cons.mp hkb with h | h
      · subst h
        exact hm (k', w) (List.mem_cons_self _ _) x hx
      · exact ih k v (fun kb' hkb' => hm kb' (List.mem_cons_of_mem _ hkb')) hkv kb h x hx

theorem entry_unique {κ ν : Type} [DecidableEq κ] :
    ∀ (l : List (κ × ν)), (l.map Prod.fst).Nodup →
      ∀ e1 ∈ l, ∀ e2 ∈ l, e1.1 = e2.1 → e1 = e2 := by
  intro l
  induction l with
  | nil => intro _ e1 h1; simp at h1
  | cons hd t ih =>
    intro hnd e1 h1 e2 h2 he
    rw [List.map_cons, List.nodup_cons] at hnd
    obtain ⟨hhd, ht⟩ := hnd
    rcases List.mem_cons.mp h1 with h1' | h1' <;> rcases List.mem_cons.mp h2 with h2' | h2'
    · rw [h1', h2']
    · exfalso
      apply hhd
      have he2 : e2.1 = hd.1 := by rw [← he, h1']
      rw [← he2]
      exact List.mem_map.mpr ⟨e2, h2', rfl⟩
    · exfalso
      apply hhd
      have he1 : e1.1 = hd.1 := by rw [he, h2']
      rw [← he1]
      exact List.mem_map.mpr ⟨e1, h1', rfl⟩
    · exact ih ht e1 h1' e2 h2' he

theorem clusterFold_char (pairs : List TProductPair) :
    ∀ (l : List String) (st : List (String × List String) × List String × UnionFind),
      UFInv st.2.2 →
      (∀ z, rootOf st.2.2 z = rootOf (ufOfPairs pairs) z) →
      (st.1.map Prod.fst).Nodup →
      (∀ kb ∈ st.1, ∀ x ∈ kb.2, rootOf (ufOfPairs pairs) x = kb.1) →
      ((l.foldl addToCluster st).1.map Prod.fst).Nodup ∧
      (∀ kb ∈ (l.foldl addToCluster st).1, ∀ x ∈ kb.2,
        rootOf (ufOfPairs pairs) x = kb.1) := by
  intro l
  induction l with
  | nil => intro st _ _ h3 h4; exact ⟨h3, h4⟩
  | cons a t ih =>
    intro st h1 h2 h3 h4
    rw [List.foldl_cons]
    by_cases hmem : a ∈ st.2.1
    · rw [show addToCluster st a = st by rw [addToCluster, if_pos hmem]]
      exact ih st h1 h2 h3 h4
    · obtain ⟨F1, F2, F3, _, _, _⟩ := find_spec st.2.2 a h1
      have hstep : addToCluster st a =
          (pushEntry st.1 ((st.2.2.find a).1) a, a :: st.2.1, (st.2.2.find a).2) := by
        rw [addToCluster, if_neg hmem]
      rw [hstep]
      have hkey : (st.2.2.find a).1 = rootOf (ufOfPairs pairs) a := by
        rw [F1, h2 a]
      apply ih
      · exact F2
      · intro z
        rw [F3 z, h2 z]
      · exact pushEntry_keys_nodup st.1 _ a h3
      · exact @pushEntry_pred (fun k x => rootOf (ufOfPairs pairs) x = k) st.1
          ((st.2.2.find a).1) a h4 (by rw [hkey])

theorem buildClusters_flatten_count (pairs : List TProductPair) (id : String) :
    ((buildClusters pairs).flatten.count id) = if id ∈ endpointList pairs then 1 else 0 := by
  have hinv := clusterStep_invariant (endpointList pairs)
    ([], [], pairs.foldl (fun uf p => uf.union p.1 p.2) UnionFind.empty)
    (by intro i; simp)
  have hproc := clusterStep_processed (endpointList pairs)
    ([], [], pairs.foldl (fun uf p => uf.union p.1 p.2) UnionFind.empty) id
  rw [buildClusters]
  rw [hinv id]
  by_cases h : id ∈ endpointList pairs
  · rw [if_pos (hproc.mpr (Or.inl h)), if_pos h]
  · rw [if_neg (fun hh => by rcases hproc.mp hh with hc | hc; exact h hc; simp at hc), if_neg h]

theorem buildClusters_cluster_nodup (pairs : List TProductPair) (cluster : List String)
    (hc : cluster ∈ buildClusters pairs) : cluster.Nodup := by
  rw [List.nodup_iff_count_le_one]
  intro a
  have hle : cluster.count a ≤ (buildClusters pairs).flatten.count a := by
    obtain ⟨pre, post, hsplit⟩ := List.append_of_mem hc
    rw [hsplit, List.flatten_append, List.flatten_cons, List.count_append, List.count_append]
    omega
  have := buildClusters_flatten_count pairs a
  by_cases h : a ∈ endpointList pairs
  · rw [if_pos h] at this; omega
  · rw [if_neg h] at this; omega

theorem buildClusters_mem_char (pairs : List TProductPair) (cluster : List String)
    (hc : cluster ∈ buildClusters pairs) :
    ∃ k, ∀ id, id ∈ cluster ↔
      (id ∈ endpointList pairs ∧ rootOf (ufOfPairs pairs) id = k) := by
  have hc' : cluster ∈ (((endpointList pairs).foldl addToCluster
      ([], [], ufOfPairs pairs)).1).map Prod.snd := hc
  obtain ⟨kb, hkb, hkbc⟩ := List.mem_map.mp hc'
  obtain ⟨hnd, hchar⟩ := clusterFold_char pairs (endpointList pairs)
    ([], [], ufOfPairs pairs) (ufOfPairs_spec pairs).1 (fun z => rfl) (by simp) (by simp)
  refine ⟨kb.1, ?_⟩
  intro id
  constructor
  · intro hid
    have hidf : id ∈ (buildClusters pairs).flatten :=
      List.mem_flatten.mpr ⟨cluster, hc, hid⟩
    have hcount := buildClusters_flatten_count pairs id
    have hep : id ∈ endpointList pairs := by
      by_contra hh
      rw [if_neg hh, List.count_eq_zero] at hcount
      exact hcount hidf
    refine ⟨hep, ?_⟩
    exact hchar kb hkb id (hkbc ▸ hid)
  · rintro ⟨hep, hroot⟩
    have hcount := buildClusters_flatten_count pairs id
    rw [if_pos hep] at hcount
    have hidf : id ∈ (buildClusters pairs).flatten := by
      rw [← List.count_pos_iff_mem, hcount]
      omega
    obtain ⟨b, hb, hidb⟩ := List.mem_flatten.mp hidf
    obtain ⟨kb', hkb', hkb'b⟩ := List.mem_map.mp hb
    have hroot' : rootOf (ufOfPairs pairs) id = kb'.1 := hchar kb' hkb' id (hkb'b ▸ hidb)
    have hkeq : kb'.1 = kb.1 := by rw [← hroot', hroot]
    have : kb' = kb := entry_unique _ hnd kb' hkb' kb hkb hkeq
    rw [← hkbc, ← this, hkb'b]
    exact hidb

theorem mem_addOnce (l : List String) (x y : String) :
    y ∈ addOnce l x ↔ y ∈ l ∨ y = x := by
  rw [addOnce]
  by_cases h : x ∈ l
  · rw [if_pos h]
    constructor
    · exact Or.inl
    · rintro (hy | hy)
      · exact hy
      · rw [hy]; exact h
  · rw [if_neg h]
    simp

theorem addOnce_nodup (l : List String) (x : String) (h : l.Nodup) : (addOnce l x).Nodup := by
  rw [addOnce]
  by_cases hx : x ∈ l
  · rw [if_pos hx]; exact h
  · rw [if_neg hx]
    exact List.Nodup.append h (List.nodup_singleton x)
      (fun y hy hy1 => hx ((List.mem_singleton.mp hy1) ▸ hy))

theorem getKV_addEdge_other (g : List (String × List String)) (a b x : String)
    (hx : x ≠ a) : getKV (addEdge g a b) x = getKV g x := by
  rw [addEdge]
  cases h : getKV g a with
  | none => rfl
  | some s => exact getKV_setKV_ne _ _ _ _ hx

theorem addEdge_isSome (g : List (String × List String)) (a b x : String) :
    (getKV (addEdge g a b) x).isSome ↔ (getKV g x).isSome := by
  rw [addEdge]
  cases h : getKV g a with
  | none => rfl
  | some s =>
    by_cases hx : x = a
    · subst hx
      rw [getKV_setKV_self, h]
      simp
    · rw [getKV_setKV_ne _ _ _ _ hx]

theorem mem_addEdge_mono (g : List (String × List String)) (a b x n : String)
    (h : n ∈ (getKV g x).getD []) : n ∈ (getKV (addEdge g a b) x).getD [] := by
  rw [addEdge]
  cases hga : getKV g a with
  | none => exact h
  | some s =>
    by_cases hx : x = a
    · subst hx
      rw [getKV_setKV_self]
      rw [hga] at h
      simp only [Option.getD_some] at h ⊢
      exact (mem_addOnce s b n).mpr (Or.inl h)
    · rw [getKV_setKV_ne _ _ _ _ hx]
      exact h

/-- One step of the adjacency fold of `sortCluster`. -/
def graphStep (cluster : List String) (g : List (String × List String))
    (p : TProductPair) : List (String × List String) :=
  if p.1 ∈ cluster ∧ p.2 ∈ cluster then addEdge (addEdge g p.1 p.2) p.2 p.1 else g

theorem buildGraph_eq (cluster : List String) (pairs : List TProductPair) :
    buildGraph cluster pairs =
      pairs.foldl (graphStep cluster) (cluster.foldl (fun g id => setKV g id []) []) := rfl

theorem mem_graphStep_mono (cluster : List String) (g : List (String × List String))
    (p : TProductPair) (x n : String) (h : n ∈ (getKV g x).getD []) :
    n ∈ (getKV (graphStep cluster g p) x).getD [] := by
  rw [graphStep]
  by_cases hc : p.1 ∈ cluster ∧ p.2 ∈ cluster
  · rw [if_pos hc]
    exact mem_addEdge_mono _ _ _ _ _ (mem_addEdge_mono _ _ _ _ _ h)
  · rw [if_neg hc]
    exact h

theorem foldGraph_mono (cluster : List String) :
    ∀ (l : List TProductPair) (g : List (String × List String)) (x n : String),
      n ∈ (getKV g x).getD [] →
      n ∈ (getKV (l.foldl (graphStep cluster) g) x).getD [] := by
  intro l
  induction l with
  | nil => intro g x n h; exact h
  | cons p t ih =>
    intro g x n h
    rw [List.foldl_cons]
    exact ih _ x n (mem_graphStep_mono cluster g p x n h)

theorem graphStep_isSome (cluster : List String) (g : List (String × List String))
    (p : TProductPair) (x : String) :
    (getKV (graphStep cluster g p) x).isSome ↔ (getKV g x).isSome := by
  rw [graphStep]
  by_cases hc : p.1 ∈ cluster ∧ p.2 ∈ cluster
  · rw [if_pos hc, addEdge_isSome, addEdge_isSome]
  · rw [if_neg hc]

theorem getKV_initGraph :
    ∀ (l : List String) (g : List (String × List String)) (x : String),
      getKV (l.foldl (fun g id => setKV g id []) g) x =
        if x ∈ l then some [] else getKV g x := by
  intro l
  induction l with
  | nil => intro g x; rw [List.foldl_nil, if_neg (List.not_mem_nil x)]
  | cons a t ih =>
    intro g x
    rw [List.foldl_cons, ih]
    by_cases hx : x ∈ t
    · rw [if_pos hx, if_pos (List.mem_cons_of_mem _ hx)]
    · rw [if_neg hx]
      by_cases hxa : x = a
      · subst hxa
        rw [getKV_setKV_self, if_pos (List.mem_cons_self _ _)]
      · rw [getKV_setKV_ne _ _ _ _ hxa,
          if_neg (by rintro (h | h); exact hxa rfl; exact hx (by assumption))]

theorem foldGraph_isSome (cluster : List String) :
    ∀ (l : List TProductPair) (g : List (String × List String)) (x : String),
      (getKV (l.foldl (graphStep cluster) g) x).isSome ↔ (getKV g x).isSome := by
  intro l
  induction l with
  | nil => intro g x; rfl
  | cons p t ih =>
    intro g x
    rw [List.foldl_cons, ih, graphStep_isSome]

theorem buildGraph_keys (cluster : List String) (pairs : List TProductPair) (x : String) :
    (getKV (buildGraph cluster pairs) x).isSome ↔ x ∈ cluster := by
  rw [buildGraph_eq, foldGraph_isSome, getKV_initGraph]
  by_cases hx : x ∈ cluster
  · rw [if_pos hx]; simp [hx]
  · rw [if_neg hx]
    constructor
    · intro h
      rw [show getKV ([] : List (String × List String)) x = none from rfl] at h
      simp at h
    · intro h; exact absurd h hx

theorem addEdge_sound (cluster : List String) (pairs : List TProductPair)
    (g : List (String × List String)) (a b : String)
    (hg : ∀ x l, getKV g x = some l → l.Nodup ∧ ∀ n ∈ l, n ∈ cluster ∧ PairStep pairs x n)
    (hb : b ∈ cluster) (hab : PairStep pairs a b) :
    ∀ x l, getKV (addEdge g a b) x = some l →
      l.Nodup ∧ ∀ n ∈ l, n ∈ cluster ∧ PairStep pairs x n := by
  intro x l hl
  rw [addEdge] at hl
  cases hga : getKV g a with
  | none => rw [hga] at hl; exact hg x l hl
  | some s =>
    rw [hga] at hl
    by_cases hx : x = a
    · subst hx
      rw [getKV_setKV_self] at hl
      injection hl with hl
      subst hl
      obtain ⟨hsnd, hsmem⟩ := hg x s hga
      refine ⟨addOnce_nodup s b hsnd, ?_⟩
      intro n hn
      rcases (mem_addOnce s b n).mp hn with hn' | hn'
      · exact hsmem n hn'
      · subst hn'
        exact ⟨hb, hab⟩
    · rw [getKV_setKV_ne _ _ _ _ hx] at hl
      exact hg x l hl

theorem graphStep_sound (cluster : List String) (pairs : List TProductPair)
    (g : List (String × List String)) (p : TProductPair) (hp : p ∈ pairs)
    (hg : ∀ x l, getKV g x = some l → l.Nodup ∧ ∀ n ∈ l, n ∈ cluster ∧ PairStep pairs x n) :
    ∀ x l, getKV (graphStep cluster g p) x = some l →
      l.Nodup ∧ ∀ n ∈ l, n ∈ cluster ∧ PairStep pairs x n := by
  rw [graphStep]
  by_cases hc : p.1 ∈ cluster ∧ p.2 ∈ cluster
  · rw [if_pos hc]
    exact addEdge_sound cluster pairs _ p.2 p.1
      (addEdge_sound cluster pairs g p.1 p.2 hg hc.2 ⟨p, hp, Or.inl ⟨rfl, rfl⟩⟩)
      hc.1 ⟨p, hp, Or.inr ⟨rfl, rfl⟩⟩
  · rw [if_neg hc]
    exact hg

theorem buildGraph_sound (cluster : List String) (pairs : List TProductPair) :
    ∀ x l, getKV (buildGraph cluster pairs) x = some l →
      l.Nodup ∧ ∀ n ∈ l, n ∈ cluster ∧ PairStep pairs x n := by
  rw [buildGraph_eq]
  have hgen : ∀ (l : List TProductPair), (∀ p ∈ l, p ∈ pairs) →
      ∀ (g : List (String × List String)),
      (∀ x s, getKV g x = some s → s.Nodup ∧ ∀ n ∈ s, n ∈ cluster ∧ PairStep pairs x n) →
      ∀ x s, getKV (l.foldl (graphStep cluster) g) x = some s →
        s.Nodup ∧ ∀ n ∈ s, n ∈ cluster ∧ PairStep pairs x n := by
    intro l
    induction l with
    | nil => intro _ g hg; exact hg
    | cons q t ih =>
      intro hsub g hg
      rw [List.foldl_cons]
      exact ih (fun p hp => hsub p (List.mem_cons_of_mem _ hp)) _
        (graphStep_sound cluster pairs g q (hsub q (List.mem_cons_self _ _)) hg)
  apply hgen pairs (fun p hp => hp)
  intro x s hs
  rw [getKV_initGraph] at hs
  by_cases hx : x ∈ cluster
  · rw [if_pos hx] at hs
    injection hs with hs
    subst hs
    exact ⟨List.nodup_nil, by simp⟩
  · rw [if_neg hx] at hs
    rw [show getKV ([] : List (String × List String)) x = none from rfl] at hs
    cases hs

theorem graphStep_adds (cluster : List String) (g : List (String × List String))
    (p : TProductPair) (h1 : p.1 ∈ cluster) (h2 : p.2 ∈ cluster)
    (hkeys : ∀ x, (getKV g x).isSome ↔ x ∈ cluster) :
    p.2 ∈ (getKV (graphStep cluster g p) p.1).getD [] ∧
    p.1 ∈ (getKV (graphStep cluster g p) p.2).getD [] := by
  rw [graphStep, if_pos ⟨h1, h2⟩]
  obtain ⟨s, hs⟩ := Option.isSome_iff_exists.mp ((hkeys p.1).mpr h1)
  have hg1 : getKV (addEdge g p.1 p.2) p.1 = some (addOnce s p.2) := by
    rw [addEdge, hs, getKV_setKV_self]
  have hp2in : p.2 ∈ (getKV (addEdge g p.1 p.2) p.1).getD [] := by
    rw [hg1]
    simp only [Option.getD_some]
    exact (mem_addOnce _ _ _).mpr (Or.inr rfl)
  constructor
  · exact mem_addEdge_mono _ _ _ _ _ hp2in
  · have hk2 : (getKV (addEdge g p.1 p.2) p.2).isSome := by
      rw [addEdge_isSome]
      exact (hkeys p.2).mpr h2
    obtain ⟨s2, hs2⟩ := Option.isSome_iff_exists.mp hk2
    have hfin : getKV (addEdge (addEdge g p.1 p.2) p.2 p.1) p.2 = some (addOnce s2 p.1) := by
      rw [addEdge, hs2, getKV_setKV_self]
    rw [hfin]
    simp only [Option.getD_some]
    exact (mem_addOnce _ _ _).mpr (Or.inr rfl)

theorem buildGraph_complete (cluster : List String) (pairs : List TProductPair) :
    ∀ p ∈ pairs, p.1 ∈ cluster → p.2 ∈ cluster →
      p.2 ∈ (getKV (buildGraph cluster pairs) p.1).getD [] ∧
      p.1 ∈ (getKV (buildGraph cluster pairs) p.2).getD [] := by
  rw [buildGraph_eq]
  have hgen : ∀ (l : List TProductPair) (g : List (String × List String)),
      (∀ x, (getKV g x).isSome ↔ x ∈ cluster) →
      ∀ p ∈ l, p.1 ∈ cluster → p.2 ∈ cluster →
        p.2 ∈ (getKV (l.foldl (graphStep cluster) g) p.1).getD [] ∧
        p.1 ∈ (getKV (l.foldl (graphStep cluster) g) p.2).getD [] := by
    intro l
    induction l with
    | nil => intro g _ p hp; simp at hp
    | cons q t ih =>
      intro g hkeys p hp h1 h2
      rw [List.foldl_cons]
      rcases List.mem_cons.mp hp with hpq | hpt
      · subst hpq
        have hadd := graphStep_adds cluster g p h1 h2 hkeys
        exact ⟨foldGraph_mono cluster t _ _ _ hadd.1, foldGraph_mono cluster t _ _ _ hadd.2⟩
      · exact ih (graphStep cluster g q)
          (fun x => (graphStep_isSome cluster g q x).trans (hkeys x)) p hpt h1 h2
  apply hgen
  intro x
  rw [getKV_initGraph]
  by_cases hx : x ∈ cluster
  · rw [if_pos hx]; simp [hx]
  · rw [if_neg hx]
    rw [show getKV ([] : List (String × List String)) x = none from rfl]
    simp [hx]

theorem nodup_subset_length_le (v cluster : List String) (hnd : v.Nodup)
    (hsub : ∀ x ∈ v, x ∈ cluster) : v.length ≤ cluster.length := by
  calc v.length = v.toFinset.card := (List.toFinset_card_of_nodup hnd).symm
  _ ≤ cluster.toFinset.card :=
      Finset.card_le_card (fun x hx => List.mem_toFinset.mpr (hsub x (List.mem_toFinset.mp hx)))
  _ ≤ cluster.length := cluster.toFinset_card_le

theorem bfsAux_succ_cons (graph : List (String × List String))
    (products : List (String × TGrocery)) (fuel : Nat) (c : String)
    (rest visited : List String) :
    bfsAux graph products (fuel + 1) (c :: rest) visited =
      (c :: (bfsAux graph products fuel
          (rest ++ sortByPriceDesc products
            (((getKV graph c).getD []).filter (fun n => decide (n ∉ visited))))
          (visited ++ sortByPriceDesc products
            (((getKV graph c).getD []).filter (fun n => decide (n ∉ visited))))).1,
        (bfsAux graph products fuel
          (rest ++ sortByPriceDesc products
            (((getKV graph c).getD []).filter (fun n => decide (n ∉ visited))))
          (visited ++ sortByPriceDesc products
            (((getKV graph c).getD []).filter (fun n => decide (n ∉ visited))))).2) := rfl

theorem adj_nodup (cluster : List String) (pairs : List TProductPair) (c : String) :
    ((getKV (buildGraph cluster pairs) c).getD []).Nodup := by
  cases h : getKV (buildGraph cluster pairs) c with
  | none => exact List.nodup_nil
  | some l =>
    simp only [Option.getD_some]
    exact (buildGraph_sound cluster pairs c l h).1

theorem adj_sub_cluster (cluster : List String) (pairs : List TProductPair) (c n : String)
    (hn : n ∈ (getKV (buildGraph cluster pairs) c).getD []) : n ∈ cluster := by
  cases h : getKV (buildGraph cluster pairs) c with
  | none => rw [h] at hn; simp at hn
  | some l =>
    rw [h] at hn
    simp only [Option.getD_some] at hn
    exact ((buildGraph_sound cluster pairs c l h).2 n hn).1


theorem bfsAux_spec (cluster : List String) (pairs : List TProductPair)
    (products : List (String × TGrocery)) :
    ∀ (fuel : Nat) (q v done : List String),
      v = done ++ q →
      v.Nodup →
      (∀ x ∈ v, x ∈ cluster) →
      (∀ x ∈ done, ∀ n ∈ (getKV (buildGraph cluster pairs) x).getD [], n ∈ v) →
      q.length + (cluster.length - v.length) ≤ fuel →
      (bfsAux (buildGraph cluster pairs) products fuel q v).2 =
          done ++ (bfsAux (buildGraph cluster pairs) products fuel q v).1 ∧
      (∃ ext, (bfsAux (buildGraph cluster pairs) products fuel q v).1 = q ++ ext) ∧
      (bfsAux (buildGraph cluster pairs) products fuel q v).2.Nodup ∧
      (∀ x ∈ (bfsAux (buildGraph cluster pairs) products fuel q v).2, x ∈ cluster) ∧
      (∀ x ∈ (bfsAux (buildGraph cluster pairs) products fuel q v).2,
        ∀ n ∈ (getKV (buildGraph cluster pairs) x).getD [],
          n ∈ (bfsAux (buildGraph cluster pairs) products fuel q v).2) := by
  intro fuel
  induction fuel with
  | zero =>
    intro q v done hsplit hnd hsub hclosed hfuel
    have hq : q = [] := List.length_eq_zero.mp (by omega)
    subst hq
    rw [List.append_nil] at hsplit
    subst hsplit
    refine ⟨by rw [show (bfsAux (buildGraph cluster pairs) products 0 [] v) = ([], v) from rfl,
        List.append_nil], ⟨[], rfl⟩, hnd, hsub, ?_⟩
    intro x hx n hn
    exact hclosed x hx n hn
  | succ fuel ih =>
    intro q v done hsplit hnd hsub hclosed hfuel
    cases q with
    | nil =>
      rw [List.append_nil] at hsplit
      subst hsplit
      refine ⟨by rw [show (bfsAux (buildGraph cluster pairs) products (fuel + 1) [] v)
          = ([], v) from rfl, List.append_nil], ⟨[], rfl⟩, hnd, hsub, ?_⟩
      intro x hx n hn
      exact hclosed x hx n hn
    | cons c rest =>
      rw [bfsAux_succ_cons]
      have hcv : c ∈ v := by
        rw [hsplit]
        exact List.mem_append_right _ (List.mem_cons_self _ _)
      have hcc : c ∈ cluster := hsub c hcv
      have hmem_ns : ∀ n, n ∈ sortByPriceDesc products
          (((getKV (buildGraph cluster pairs) c).getD []).filter
            (fun n => decide (n ∉ v))) ↔
          (n ∈ (getKV (buildGraph cluster pairs) c).getD [] ∧ n ∉ v) := by
        intro n
        rw [sortByPriceDesc,
          (List.perm_insertionSort _ _).mem_iff, List.mem_filter]
        simp only [decide_eq_true_eq]
      have hns_nodup : (sortByPriceDesc products
          (((getKV (buildGraph cluster pairs) c).getD []).filter
            (fun n => decide (n ∉ v)))).Nodup := by
        rw [sortByPriceDesc]
        exact (List.perm_insertionSort _ _).nodup_iff.mpr
          ((adj_nodup cluster pairs c).filter _)
      have hv'_nodup : (v ++ sortByPriceDesc products
          (((getKV (buildGraph cluster pairs) c).getD []).filter
            (fun n => decide (n ∉ v)))).Nodup := by
        refine List.Nodup.append hnd hns_nodup ?_
        intro x hxv hxns
        exact ((hmem_ns x).mp hxns).2 hxv
      have hv'_sub : ∀ x ∈ v ++ sortByPriceDesc products
          (((getKV (buildGraph cluster pairs) c).getD []).filter
            (fun n => decide (n ∉ v))), x ∈ cluster := by
        intro x hx
        rcases List.mem_append.mp hx with hx | hx
        · exact hsub x hx
        · exact adj_sub_cluster cluster pairs c x ((hmem_ns x).mp hx).1
      have hsplit' : v ++ sortByPriceDesc products
          (((getKV (buildGraph cluster pairs) c).getD []).filter
            (fun n => decide (n ∉ v))) =
          (done ++ [c]) ++ (rest ++ sortByPriceDesc products
            (((getKV (buildGraph cluster pairs) c).getD []).filter
              (fun n => decide (n ∉ v)))) := by
        rw [hsplit]
        simp
      have hclosed' : ∀ x ∈ done ++ [c],
          ∀ n ∈ (getKV (buildGraph cluster pairs) x).getD [],
          n ∈ v ++ sortByPriceDesc products
            (((getKV (buildGraph cluster pairs) c).getD []).filter
              (fun n => decide (n ∉ v))) := by
        intro x hx n hn
        rcases List.mem_append.mp hx with hx | hx
        · exact List.mem_append_left _ (hclosed x hx n hn)
        · rw [List.mem_singleton.mp hx] at hn
          by_cases hnv : n ∈ v
          · exact List.mem_append_left _ hnv
          · exact List.mem_append_right _ ((hmem_ns n).mpr ⟨hn, hnv⟩)
      have hfuel' : (rest ++ sortByPriceDesc products
            (((getKV (buildGraph cluster pairs) c).getD []).filter
              (fun n => decide (n ∉ v)))).length +
          (cluster.length - (v ++ sortByPriceDesc products
            (((getKV (buildGraph cluster pairs) c).getD []).filter
              (fun n => decide (n ∉ v)))).length) ≤ fuel := by
        have hle := nodup_subset_length_le _ cluster hv'_nodup hv'_sub
        rw [List.length_append] at hle ⊢
        rw [List.length_append]
        simp only [List.length_cons] at hfuel
        omega
      obtain ⟨R1, ⟨ext, R2⟩, R3, R4, R5⟩ := ih
        (rest ++ sortByPriceDesc products
          (((getKV (buildGraph cluster pairs) c).getD []).filter
            (fun n => decide (n ∉ v))))
        (v ++ sortByPriceDesc products
          (((getKV (buildGraph cluster pairs) c).getD []).filter
            (fun n => decide (n ∉ v))))
        (done ++ [c]) hsplit' hv'_nodup hv'_sub hclosed' hfuel'
      refine ⟨?_, ⟨sortByPriceDesc products
          (((getKV (buildGraph cluster pairs) c).getD []).filter
            (fun n => decide (n ∉ v))) ++ ext, ?_⟩, R3, R4, R5⟩
      · rw [R1]
        simp
      · simp only [R2]
        simp

theorem scan_spec (products : List (String × TGrocery)) :
    ∀ (l : List String) (st st' : String × Int),
      l.foldlM (fun (st : String × Int) id =>
        match getKV products id with
        | none => none
        | some p => some (if p.price > st.2 then (id, p.price) else st)) st = some st' →
      (∀ id ∈ l, priceOf products id ≤ st'.2) ∧
      st.2 ≤ st'.2 ∧
      ((st' = st ∧ ∀ id ∈ l, priceOf products id ≤ st.2) ∨
       (∃ pre post, l = pre ++ st'.1 :: post ∧ priceOf products st'.1 = st'.2 ∧
         st.2 < st'.2 ∧ ∀ j ∈ pre, priceOf products j < st'.2)) := by
  intro l
  induction l with
  | nil =>
    intro st st' h
    have hst : st = st' := by
      simpa using h
    subst hst
    exact ⟨by simp, le_refl _, Or.inl ⟨rfl, by simp⟩⟩
  | cons a t ih =>
    intro st st' h
    rw [List.foldlM_cons] at h
    cases hga : getKV products a with
    | none =>
      rw [hga] at h
      simp at h
    | some p =>
      rw [hga] at h
      simp only [Option.bind_eq_bind, Option.some_bind] at h
      have hpa : priceOf products a = p.price := by
        rw [priceOf, hga]
        rfl
      by_cases hup : p.price > st.2
      · rw [if_pos hup] at h
        obtain ⟨H2, H3, H4⟩ := ih (a, p.price) st' h
        have hb1 : priceOf products a ≤ st'.2 := by
          rw [hpa]
          exact le_trans (le_refl _) H3
        refine ⟨?_, by omega, ?_⟩
        · intro id hid
          rcases List.mem_cons.mp hid with h' | h'
          · rw [h']; exact hb1
          · exact H2 id h'
        · rcases H4 with ⟨hst'eq, hallt⟩ | ⟨pre, post, hteq, hpr, hlt, hpre⟩
          · refine Or.inr ⟨[], t, ?_, ?_, ?_, by simp⟩
            · rw [hst'eq]
              rfl
            · rw [hst'eq, hpa]
            · rw [hst'eq]
              exact hup
          · refine Or.inr ⟨a :: pre, post, by rw [hteq, List.cons_append], hpr, by omega, ?_⟩
            intro j hj
            rcases List.mem_cons.mp hj with h' | h'
            · rw [h', hpa]; omega
            · exact hpre j h'
      · rw [if_neg hup] at h
        obtain ⟨H2, H3, H4⟩ := ih st st' h
        have hb1 : priceOf products a ≤ st'.2 := by
          rw [hpa]; omega
        refine ⟨?_, H3, ?_⟩
        · intro id hid
          rcases List.mem_cons.mp hid with h' | h'
          · rw [h']; exact hb1
          · exact H2 id h'
        · rcases H4 with ⟨hst'eq, hallt⟩ | ⟨pre, post, hteq, hpr, hlt, hpre⟩
          · refine Or.inl ⟨hst'eq, ?_⟩
            intro id hid
            rcases List.mem_cons.mp hid with h' | h'
            · rw [h', hpa]; omega
            · exact hallt id h'
          · refine Or.inr ⟨a :: pre, post, by rw [hteq, List.cons_append], hpr, hlt, ?_⟩
            intro j hj
            rcases List.mem_cons.mp hj with h' | h'
            · rw [h', hpa]; omega
            · exact hpre j h'


theorem connected_closure_mem (cluster : List String) (pairs : List TProductPair)
    (S : List String) (k : String)
    (hchar : ∀ id, id ∈ cluster ↔ (id ∈ endpointList pairs ∧ rootOf (ufOfPairs pairs) id = k))
    (hsubS : ∀ x ∈ S, x ∈ cluster)
    (hclosed : ∀ x ∈ S, ∀ n ∈ (getKV (buildGraph cluster pairs) x).getD [], n ∈ S)
    (s : String) (hsS : s ∈ S) :
    ∀ y, Connected pairs s y → y ∈ S := by
  intro y hconn
  induction hconn with
  | refl => exact hsS
  | @tail cmid d hconn' hstep ihz =>
    have hcmid : cmid ∈ S := ihz
    have hcmid_cl : cmid ∈ cluster := hsubS cmid hcmid
    have hsk : rootOf (ufOfPairs pairs) s = k := ((hchar s).mp (hsubS s hsS)).2
    have hd_cl : d ∈ cluster := by
      apply (hchar d).mpr
      constructor
      · obtain ⟨p, hp, hor⟩ := hstep
        rcases hor with ⟨_, h2⟩ | ⟨h1, _⟩
        · exact (mem_endpointList pairs d).mpr ⟨p, hp, Or.inr h2⟩
        · exact (mem_endpointList pairs d).mpr ⟨p, hp, Or.inl h1⟩
      · have hcd : Connected pairs s d := hconn'.tail hstep
        have hr := ((ufOfPairs_spec pairs).2 s d).mpr hcd
        rw [← hr, hsk]
    obtain ⟨p, hp, hor⟩ := hstep
    rcases hor with ⟨h1, h2⟩ | ⟨h1, h2⟩
    · have hedge := buildGraph_complete cluster pairs p hp
        (by rw [h1]; exact hcmid_cl) (by rw [h2]; exact hd_cl)
      have hdin : d ∈ (getKV (buildGraph cluster pairs) cmid).getD [] := by
        rw [← h1, ← h2]
        exact hedge.1
      exact hclosed cmid hcmid d hdin
    · have hedge := buildGraph_complete cluster pairs p hp
        (by rw [h1]; exact hd_cl) (by rw [h2]; exact hcmid_cl)
      have hdin : d ∈ (getKV (buildGraph cluster pairs) cmid).getD [] := by
        rw [← h1, ← h2]
        exact hedge.2
      exact hclosed cmid hcmid d hdin

/-- C7: for a cluster produced by the horizontal cluster builder whose
ordering succeeds (with the item collection keyed by item id, as the caller
builds it), the BFS ordering (1) contains every cluster member exactly once
(its ids are a permutation of the cluster), (2) starts at the item with
strictly maximum price — the first such item in cluster order on ties — and
(3) its first element's price is ≥ every member's price. -/
theorem c7_sortCluster_bfs_cover_max_first :
    ∀ (pairs : List TProductPair) (products : List (String × TGrocery))
      (cluster : List String) (out : List TGrocery),
      cluster ∈ buildClusters pairs →
      (∀ id ∈ cluster, TGrocery.id ((getKV products id).getD default) = id) →
      sortCluster cluster pairs products = some out →
      List.Perm (out.map TGrocery.id) cluster ∧
      (∃ pre post, cluster = pre ++ (TGrocery.id out.headI) :: post ∧
        (∀ j ∈ pre, priceOf products j < priceOf products (TGrocery.id out.headI)) ∧
        (∀ id ∈ cluster, priceOf products id ≤ priceOf products (TGrocery.id out.headI))) ∧
      (∀ g ∈ out, TGrocery.price g ≤ TGrocery.price out.headI) := by
  intro pairs products cluster out hc hwf hout
  cases hcl : cluster with
  | nil =>
    subst hcl
    simp only [sortCluster] at hout
    cases hout
  | cons c0 ctl =>
    subst hcl
    simp only [sortCluster] at hout
    cases hg0 : getKV products c0 with
    | none =>
      rw [hg0] at hout
      cases hout
    | some g0 =>
      rw [hg0] at hout
      simp only [] at hout
      cases hscan : (c0 :: ctl).foldlM (fun (st : String × Int) id =>
          match getKV products id with
          | none => none
          | some p => some (if p.price > st.2 then (id, p.price) else st)) (c0, g0.price) with
      | none =>
        rw [hscan] at hout
        simp only [] at hout
        cases hout
      | some st =>
        rw [hscan] at hout
        simp only [Option.some.injEq] at hout
        obtain ⟨S2, S3, S4⟩ := scan_spec products (c0 :: ctl) (c0, g0.price) st hscan
        have hpc0 : priceOf products c0 = g0.price := by
          rw [priceOf, hg0]
          rfl
        have hdec : ∃ pre post, c0 :: ctl = pre ++ st.1 :: post ∧
            ∀ j ∈ pre, priceOf products j < priceOf products st.1 := by
          rcases S4 with ⟨hsteq, _⟩ | ⟨pre, post, hsplit, hpr, _, hpre⟩
          · exact ⟨[], ctl, by rw [hsteq]; rfl, by simp⟩
          · exact ⟨pre, post, hsplit, fun j hj => by rw [hpr]; exact hpre j hj⟩
        have hprice_st : priceOf products st.1 = st.2 := by
          rcases S4 with ⟨hsteq, _⟩ | ⟨_, _, _, hpr, _, _⟩
          · rw [hsteq, hpc0]
          · exact hpr
        have hmax : ∀ id ∈ c0 :: ctl, priceOf products id ≤ priceOf products st.1 := by
          intro id hid
          rw [hprice_st]
          exact S2 id hid
        have hst1mem : st.1 ∈ c0 :: ctl := by
          obtain ⟨pre, post, hsplit, _⟩ := hdec
          rw [hsplit]
          exact List.mem_append_right _ (List.mem_cons_self _ _)
        have HB := bfsAux_spec (c0 :: ctl) pairs products
          (c0 :: ctl).length [st.1] [st.1] []
          (by rfl)
          (List.nodup_singleton _)
          (by intro x hx; rw [List.mem_singleton.mp hx]; exact hst1mem)
          (by intro x hx; simp at hx)
          (by simp only [List.length_singleton, List.length_cons, List.length_nil]; omega)
        obtain ⟨R1, ⟨ext, R2⟩, R3, R4, R5⟩ := HB
        rw [List.nil_append] at R1
        have hst1S : st.1 ∈ (bfsAux (buildGraph (c0 :: ctl) pairs) products
            (c0 :: ctl).length [st.1] [st.1]).2 := by
          rw [R1, R2]
          exact List.mem_append_left _ (List.mem_singleton_self _)
        obtain ⟨k, hchar⟩ := buildClusters_mem_char pairs (c0 :: ctl) hc
        have hcover : ∀ y ∈ c0 :: ctl,
            y ∈ (bfsAux (buildGraph (c0 :: ctl) pairs) products
              (c0 :: ctl).length [st.1] [st.1]).2 := by
          intro y hy
          apply connected_closure_mem (c0 :: ctl) pairs _ k hchar R4 R5 st.1 hst1S
          apply ((ufOfPairs_spec pairs).2 st.1 y).mp
          rw [((hchar st.1).mp hst1mem).2, ((hchar y).mp hy).2]
        have hnd_cluster : (c0 :: ctl).Nodup := buildClusters_cluster_nodup pairs _ hc
        have horder_perm : List.Perm
            ((bfsAux (buildGraph (c0 :: ctl) pairs) products
              (c0 :: ctl).length [st.1] [st.1]).1) (c0 :: ctl) := by
          rw [← R1]
          apply List.perm_of_nodup_nodup_toFinset_eq R3 hnd_cluster
          apply Finset.ext
          intro x
          rw [List.mem_toFinset, List.mem_toFinset]
          exact ⟨fun hx => R4 x hx, fun hx => hcover x hx⟩
        have hout_ids : out.map TGrocery.id =
            (bfsAux (buildGraph (c0 :: ctl) pairs) products
              (c0 :: ctl).length [st.1] [st.1]).1 := by
          rw [← hout, List.map_map]
          have hcongr : ∀ x ∈ (bfsAux (buildGraph (c0 :: ctl) pairs) products
              (c0 :: ctl).length [st.1] [st.1]).1,
              (TGrocery.id ∘ fun id => (getKV products id).getD default) x = x := by
            intro x hx
            have hxcl : x ∈ c0 :: ctl := R4 x (by rw [R1]; exact hx)
            exact hwf x hxcl
          rw [List.map_congr_left hcongr]
          exact List.map_id _
        have hord1 : (bfsAux (buildGraph (c0 :: ctl) pairs) products
            (c0 :: ctl).length [st.1] [st.1]).1 = st.1 :: ext := R2
        have hout_head : out.headI = (getKV products st.1).getD default := by
          rw [← hout, hord1]
          rfl
        have hhead_id : TGrocery.id out.headI = st.1 := by
          rw [hout_head]
          exact hwf st.1 hst1mem
        refine ⟨?_, ?_, ?_⟩
        · rw [hout_ids]
          exact horder_perm
        · rw [hhead_id]
          obtain ⟨pre, post, hsplit, hpre⟩ := hdec
          exact ⟨pre, post, hsplit, hpre, hmax⟩
        · intro g hg
          rw [← hout] at hg
          obtain ⟨x, hx, hgx⟩ := List.mem_map.mp hg
          have hxcl : x ∈ c0 :: ctl := R4 x (by rw [R1]; exact hx)
          have hgp : TGrocery.price g = priceOf products x := by
            rw [← hgx]
            rfl
          have hhp : TGrocery.price out.headI = priceOf products st.1 := by
            rw [hout_head]
            rfl
          rw [hgp, hhp]
          exact hmax x hxcl

/-- Witness for C7 at a concrete input: cluster C-B-A (pairs C-B, B-A) with
prices C=1, B=3, A=5 orders as A, B, C — the maximum-price item first,
covering every member once. -/
theorem c7_witness :
    List.Perm ((([⟨"A", "A", 5, "", ""⟩, ⟨"B", "B", 3, "", ""⟩, ⟨"C", "C", 1, "", ""⟩]
        : List TGrocery).map TGrocery.id)) ["C", "B", "A"] ∧
    (∃ pre post, ["C", "B", "A"] = pre ++
        (TGrocery.id (([⟨"A", "A", 5, "", ""⟩, ⟨"B", "B", 3, "", ""⟩, ⟨"C", "C", 1, "", ""⟩]
          : List TGrocery).headI)) :: post ∧
      (∀ j ∈ pre, priceOf [("A", ⟨"A", "A", 5, "", ""⟩), ("B", ⟨"B", "B", 3, "", ""⟩),
          ("C", ⟨"C", "C", 1, "", ""⟩)] j <
        priceOf [("A", ⟨"A", "A", 5, "", ""⟩), ("B", ⟨"B", "B", 3, "", ""⟩),
          ("C", ⟨"C", "C", 1, "", ""⟩)]
          (TGrocery.id (([⟨"A", "A", 5, "", ""⟩, ⟨"B", "B", 3, "", ""⟩, ⟨"C", "C", 1, "", ""⟩]
            : List TGrocery).headI))) ∧
      (∀ id ∈ ["C", "B", "A"],
        priceOf [("A", ⟨"A", "A", 5, "", ""⟩), ("B", ⟨"B", "B", 3, "", ""⟩),
          ("C", ⟨"C", "C", 1, "", ""⟩)] id ≤
        priceOf [("A", ⟨"A", "A", 5, "", ""⟩), ("B", ⟨"B", "B", 3, "", ""⟩),
          ("C", ⟨"C", "C", 1, "", ""⟩)]
          (TGrocery.id (([⟨"A", "A", 5, "", ""⟩, ⟨"B", "B", 3, "", ""⟩, ⟨"C", "C", 1, "", ""⟩]
            : List TGrocery).headI)))) ∧
    (∀ g ∈ ([⟨"A", "A", 5, "", ""⟩, ⟨"B", "B", 3, "", ""⟩, ⟨"C", "C", 1, "", ""⟩]
        : List TGrocery),
      TGrocery.price g ≤ TGrocery.price
        (([⟨"A", "A", 5, "", ""⟩, ⟨"B", "B", 3, "", ""⟩, ⟨"C", "C", 1, "", ""⟩]
          : List TGrocery).headI)) :=
  c7_sortCluster_bfs_cover_max_first [("C", "B"), ("B", "A")]
    [("A", ⟨"A", "A", 5, "", ""⟩), ("B", ⟨"B", "B", 3, "", ""⟩), ("C", ⟨"C", "C", 1, "", ""⟩)]
    ["C", "B", "A"]
    [⟨"A", "A", 5, "", ""⟩, ⟨"B", "B", 3, "", ""⟩, ⟨"C", "C", 1, "", ""⟩]
    (by decide) (by decide) (by decide)
